import Mathlib

/-!
Verification development for the codemap of a preprocessed file
(crate sources: src/codemap.rs, src/easyloc.rs).

The buffer is modelled as a list of characters and a byte index as an
index into that list (the source code only inspects newline characters
and ASCII digits, so character positions coincide with byte positions
on the inputs of interest).  Machine-integer casts (the Rust casts
between isize and usize) are modelled explicitly through reduction
modulo 2 to the 64; places where the Rust code can panic (slice
indexing out of bounds, unwrap of a parse result, unwrap of an empty
list) are modelled with Option, with none standing for a panic.
-/

/-- A half-open range of byte or line indices (Rust std::ops::Range of usize). -/
structure Span where
  start : Nat
  stop : Nat
deriving DecidableEq, Repr, Inhabited

/-- The Rust cast from a signed value to usize: reduction mod 2 to the 64. -/
def usizeOfInt (x : Int) : Nat :=
  (x % (18446744073709551616 : Int)).toNat

/-- The Rust cast from usize to isize: two's-complement reinterpretation. -/
def isizeOfNat (n : Nat) : Int :=
  if n % 18446744073709551616 < 9223372036854775808 then
    ((n % 18446744073709551616 : Nat) : Int)
  else ((n % 18446744073709551616 : Nat) : Int) - 18446744073709551616

/-- Digits of an unsigned decimal literal folded to its value (Rust from_str digit loop). -/
def parseNatDigits (cs : List Char) : Option Nat :=
  if cs = [] then none
  else if cs.all Char.isDigit then
    some (cs.foldl (fun a c => a * 10 + (c.toNat - 48)) 0)
  else none

/-- Rust str::parse to isize: optional sign, decimal digits, value within the isize range. -/
def parseIsize (cs : List Char) : Option Int :=
  match cs with
  | [] => none
  | c :: rest =>
    if c = '-' then
      (parseNatDigits rest).bind
        (fun n => if (n : Int) ≤ 9223372036854775808 then some (-(n : Int)) else none)
    else if c = '+' then
      (parseNatDigits rest).bind
        (fun n => if (n : Int) ≤ 9223372036854775807 then some ((n : Int)) else none)
    else
      (parseNatDigits cs).bind
        (fun n => if (n : Int) ≤ 9223372036854775807 then some ((n : Int)) else none)

/-- Positions of newline characters, starting the numbering at i
(Rust match_indices of the newline character). -/
def nlPositions : List Char → Nat → List Nat
  | [], _ => []
  | c :: cs, i =>
    if c = '\n' then i :: nlPositions cs (i + 1) else nlPositions cs (i + 1)

/-- codemap.rs lines 86-98: newline positions, with the buffer length appended
when the data has no final newline. -/
def lineEndings (s : List Char) : List Nat :=
  match (nlPositions s 0).getLast? with
  | some l => if l = s.length - 1 then nlPositions s 0 else nlPositions s 0 ++ [s.length]
  | none => nlPositions s 0 ++ [s.length]

/-- codemap.rs lines 100-105: the line table, pairing each line start
(0 or one past the previous ending) with its ending. -/
def lineRanges (s : List Char) : List Span :=
  List.zipWith (fun a b => Span.mk a b)
    (0 :: (lineEndings s).map (fun e => e + 1)) (lineEndings s)

/-- The slice contents[r.start..r.stop] of the buffer. -/
def lineContent (s : List Char) (r : Span) : List Char :=
  (s.take r.stop).drop r.start

/-- Rust str::starts_with applied to the marker token. -/
def startsWithMarker (cs : List Char) : Bool :=
  match cs with
  | c1 :: c2 :: c3 :: c4 :: c5 :: _ =>
    c1 = '#' && c2 = 'l' && c3 = 'i' && c4 = 'n' && c5 = 'e'
  | _ => false

/-- Rust str::find of a single space: index of the first space character. -/
def findSpace : List Char → Option Nat
  | [] => none
  | c :: cs => if c = ' ' then some 0 else (findSpace cs).map (fun n => n + 1)

/-- codemap.rs lines 12-18: transient parse result of one marker line. -/
structure LineDirective where
  line_index : Nat
  byte_index : Nat
  offset : Int
  filename : Option Span
deriving DecidableEq, Repr, Inhabited

/-- codemap.rs lines 111-129: parse of one line that starts with the marker.
none models a panic (the slice str[6..] when the line is shorter than 6
bytes, or the unwrap of a failed isize parse). -/
def parseDirective (s : List Char) (l : Nat) (r : Span) : Option LineDirective :=
  let str := lineContent s r
  if str.length < 6 then none
  else
    match findSpace (str.drop 6) with
    | some sep0 =>
      match parseIsize ((str.drop 6).take sep0) with
      | some n =>
        some ⟨l, r.start, isizeOfNat l + 2 - n,
          some ⟨r.start + (sep0 + 6) + 2, r.start + str.length - 1⟩⟩
      | none => none
    | none =>
      match parseIsize (str.drop 6) with
      | some n => some ⟨l, r.start, isizeOfNat l + 2 - n, none⟩
      | none => none

/-- codemap.rs lines 107-110: the enumerated lines whose content starts with the marker. -/
def markedLines (s : List Char) : List (Nat × Span) :=
  ((lineRanges s).enum).filter (fun p => startsWithMarker (lineContent s p.2))

/-- Parse of a list of enumerated marker lines; none as soon as one parse panics. -/
def scanDirectives (s : List Char) : List (Nat × Span) → Option (List LineDirective)
  | [] => some []
  | p :: ps =>
    match parseDirective s p.1 p.2 with
    | some d => (scanDirectives s ps).map (fun ds => d :: ds)
    | none => none

/-- codemap.rs lines 107-130: the parsed directives, in line order;
none models a panic while parsing some marker line. -/
def directivesOf (s : List Char) : Option (List LineDirective) :=
  scanDirectives s (markedLines s)

/-- codemap.rs lines 26-32: one provenance segment of the input. -/
structure FileSlice where
  name : Span
  bytes : Span
  lines : Span
  offset : Int
deriving DecidableEq, Repr, Inhabited

/-- codemap.rs lines 144-164: segments for a non-empty directive list,
threading the current filename; the first argument of the recursion is
the directive playing the role of start, the list holds the later ones.
none models the panic of indexing line_ranges out of bounds. -/
def extendSlices (lr : List Span) : Span → LineDirective → List LineDirective → Option (List FileSlice)
  | current, d, [] =>
    match lr.getLast?, lr.get? (d.line_index + 1) with
    | some lastR, some r =>
      some [⟨d.filename.getD current, ⟨r.start, lastR.stop⟩,
        ⟨d.line_index + 1, lr.length⟩, d.offset⟩]
    | _, _ => none
  | current, d, e :: rest =>
    match lr.get? (d.line_index + 1) with
    | some r =>
      (extendSlices lr (d.filename.getD current) e rest).map
        (fun tail => ⟨d.filename.getD current, ⟨r.start, e.byte_index⟩,
          ⟨d.line_index + 1, e.line_index⟩, d.offset⟩ :: tail)
    | none => none

/-- codemap.rs lines 132-172: the full segment list, with the leading
segment when the first directive is not on line 0, and the single
whole-buffer segment when there is no directive. -/
def buildSlices (lr : List Span) (ds : List LineDirective) : Option (List FileSlice) :=
  match ds with
  | [] =>
    match lr.getLast? with
    | some lastR => some [⟨⟨0, 0⟩, ⟨0, lastR.stop⟩, ⟨0, lr.length⟩, 0⟩]
    | none => none
  | first :: rest =>
    (extendSlices lr ⟨0, 0⟩ first rest).map
      (fun tail =>
        if 0 < first.line_index then
          ⟨⟨0, 0⟩, ⟨0, first.byte_index⟩, ⟨0, first.line_index⟩, 0⟩ :: tail
        else tail)

/-- codemap.rs lines 34-40: the codemap of a preprocessed file. -/
structure PreprocessedFile where
  ids : List FileSlice
  lines : List Span
  contents : List Char
deriving DecidableEq, Repr

/-- codemap.rs lines 83-179: construction; none models a construction panic. -/
def PreprocessedFile.new (contents : List Char) : Option PreprocessedFile :=
  match directivesOf contents with
  | none => none
  | some ds =>
    match buildSlices (lineRanges contents) ds with
    | none => none
    | some ids => some ⟨ids, lineRanges contents, contents⟩

/-- The loop of Rust slice::binary_search_by, fueled (the fuel is an upper
bound on the iteration count; the window size strictly decreases, so a
fuel equal to the initial size is always enough). -/
def bsGo {α : Type} [Inhabited α] (f : α → Ordering) (xs : List α) : Nat → Nat → Nat → Nat
  | 0, base, _ => base
  | fuel + 1, base, size =>
    if size ≤ 1 then base
    else
      match f (xs.getD (base + size / 2) default) with
      | Ordering.gt => bsGo f xs fuel base (size - size / 2)
      | _ => bsGo f xs fuel (base + size / 2) (size - size / 2)

/-- Rust slice::binary_search_by: inl is Ok (a position comparing Equal),
inr is Err (the insertion point). -/
def binarySearchBy {α : Type} [Inhabited α] (f : α → Ordering) (xs : List α) : Nat ⊕ Nat :=
  if xs.length = 0 then Sum.inr 0
  else
    match f (xs.getD (bsGo f xs xs.length 0 xs.length) default) with
    | Ordering.eq => Sum.inl (bsGo f xs xs.length 0 xs.length)
    | Ordering.lt => Sum.inr (bsGo f xs xs.length 0 xs.length + 1)
    | Ordering.gt => Sum.inr (bsGo f xs xs.length 0 xs.length)

/-- codemap.rs lines 197-200: comparator of a byte index against a segment. -/
def sliceCmp (byte : Nat) (x : FileSlice) : Ordering :=
  if byte < x.bytes.start then Ordering.gt
  else if x.bytes.stop < byte then Ordering.lt
  else Ordering.eq

/-- codemap.rs line 67: comparator of a byte index against a line range. -/
def lineCmp (byte : Nat) (r : Span) : Ordering :=
  if byte < r.start then Ordering.gt
  else if r.stop < byte then Ordering.lt
  else Ordering.eq

/-- codemap.rs lines 193-206: segment lookup by byte index;
none models the panic of last().unwrap() on an empty segment list. -/
def PreprocessedFile.file_id (pf : PreprocessedFile) (byte : Nat) : Option FileSlice :=
  match binarySearchBy (sliceCmp byte) pf.ids with
  | Sum.inl i => pf.ids.get? i
  | Sum.inr i => if i < pf.ids.length then pf.ids.get? i else pf.ids.getLast?

/-- The error type of codespan_reporting used by the Files operations. -/
inductive FilesError where
  | fileMissing : FilesError
  | lineTooLarge : Nat → Nat → FilesError
deriving DecidableEq, Repr

/-- codemap.rs lines 59-70: original line index of a byte offset within a
segment; none models the panic of unwrap on a failed binary search. -/
def PreprocessedFile.line_index (pf : PreprocessedFile) (id : FileSlice) (byte : Nat) :
    Option (Except FilesError Nat) :=
  if id.bytes.stop ≤ byte then
    some (Except.ok (usizeOfInt (isizeOfNat id.lines.stop - 1 - id.offset)))
  else if byte < id.bytes.start then
    some (Except.error FilesError.fileMissing)
  else
    match binarySearchBy (lineCmp byte) pf.lines with
    | Sum.inl i => some (Except.ok (usizeOfInt (isizeOfNat i - id.offset)))
    | Sum.inr _ => none

/-- codemap.rs lines 72-76: byte range of an original line index of a segment. -/
def PreprocessedFile.line_range (pf : PreprocessedFile) (id : FileSlice) (line_index : Nat) :
    Except FilesError Span :=
  match pf.lines.get? (usizeOfInt (isizeOfNat line_index + id.offset)) with
  | some r => Except.ok r
  | none => Except.error (FilesError.lineTooLarge line_index pf.lines.length)

/-- codemap.rs lines 51-53: filename text of a segment, sliced from the buffer;
none models the panic of slicing with an invalid range. -/
def PreprocessedFile.name (pf : PreprocessedFile) (id : FileSlice) : Option (List Char) :=
  if id.name.start ≤ id.name.stop ∧ id.name.stop ≤ pf.contents.length then
    some ((pf.contents.take id.name.stop).drop id.name.start)
  else none

/-- Plain line index of a byte offset, from a direct newline count
(the reference value the specification compares line_index against). -/
def plainLineIndex (s : List Char) (b : Nat) : Nat :=
  ((s.take b).filter (fun c => c = '\n')).length

/-- Byte position where line l starts; for l past the table, the stop of
the last line (the position right after the content of the buffer). -/
def lineStart (lr : List Span) (l : Nat) : Nat :=
  if l < lr.length then (lr.getD l default).start else (lr.getLastD default).stop

/-- Rank of a comparator answer, increasing along a sorted list. -/
def ordRank : Ordering → Nat
  | Ordering.lt => 0
  | Ordering.eq => 1
  | Ordering.gt => 2

/-- The comparator is monotone along the list (the pattern lt* eq* gt*),
which is what Rust binary_search_by requires of its caller. -/
def MonoCmp {α : Type} [Inhabited α] (f : α → Ordering) (xs : List α) : Prop :=
  ∀ i j, i < j → j < xs.length →
    ordRank (f (xs.getD i default)) ≤ ordRank (f (xs.getD j default))

/-- Facts the scanner guarantees for every parsed directive. -/
def DirFacts (s : List Char) (lr : List Span) (d : LineDirective) : Prop :=
  d.line_index < lr.length ∧
  d.byte_index = (lr.getD d.line_index default).start ∧
  (lr.getD d.line_index default).start + 5 ≤ (lr.getD d.line_index default).stop ∧
  startsWithMarker (lineContent s (lr.getD d.line_index default)) = true

/-- Shape of every emitted segment: its byte endpoints are the line starts
of its line endpoints. -/
def SliceShape (lr : List Span) (sl : FileSlice) : Prop :=
  sl.bytes.start = lineStart lr sl.lines.start ∧
  sl.bytes.stop = lineStart lr sl.lines.stop ∧
  sl.lines.start ≤ sl.lines.stop ∧ sl.lines.stop ≤ lr.length

/-- easyloc.rs lines 13-17: a value together with a location. -/
structure EasyLocated (X : Type u) where
  inner : X
  loc : Span

/-- easyloc.rs lines 39-43: map transforms the value. -/
def EasyLocated.map {X Y : Type u} (f : X → Y) (a : EasyLocated X) : EasyLocated Y :=
  ⟨f a.inner, a.loc⟩

/-- easyloc.rs lines 201-206: PartialEq delegates to the inner values. -/
def EasyLocated.eqv {X : Type u} (e : X → X → Bool) (a b : EasyLocated X) : Bool :=
  e a.inner b.inner

/-- easyloc.rs lines 277-283: Ord::cmp delegates to the inner values. -/
def EasyLocated.cmpWith {X : Type u} (c : X → X → Ordering) (a b : EasyLocated X) : Ordering :=
  c a.inner b.inner

/-- easyloc.rs lines 210-216: Hash delegates to the inner value
(the hasher is modelled as a state transformer). -/
def EasyLocated.hashWith {X : Type u} {H : Type v} (h : X → H → H) (a : EasyLocated X) (st : H) : H :=
  h a.inner st

/-- easyloc.rs lines 295-301: Display delegates to the inner value. -/
def EasyLocated.displayWith {X : Type u} (d : X → String) (a : EasyLocated X) : String :=
  d a.inner

/-- Example buffer with a preamble line, one directive line and one content line. -/
def exBuf : List Char := ("a\n#line 1 \"f\"\nb\n").toList

/-- The directive list the scanner produces for exBuf. -/
def exDs : List LineDirective := [⟨1, 2, 2, some ⟨11, 12⟩⟩]

/-- The codemap construction produces for exBuf. -/
def exPf : PreprocessedFile :=
  ⟨[⟨⟨0, 0⟩, ⟨0, 2⟩, ⟨0, 1⟩, 0⟩, ⟨⟨11, 12⟩, ⟨14, 15⟩, ⟨2, 3⟩, 2⟩],
    [⟨0, 1⟩, ⟨2, 13⟩, ⟨14, 15⟩], exBuf⟩

/-- Example buffer whose first line is a directive naming file F. -/
def c2wBuf : List Char := ("#line 3 \"F\"\nx\n").toList

/-- The codemap the construction produces for c2wBuf. -/
def c2wPf : PreprocessedFile :=
  ⟨[⟨⟨9, 10⟩, ⟨12, 13⟩, ⟨1, 2⟩, -1⟩], [⟨0, 11⟩, ⟨12, 13⟩], c2wBuf⟩

/-! ## Basic lemmas -/

theorem scanDirectives_none_of_mem (s : List Char) (ps : List (Nat × Span)) (p : Nat × Span)
    (hp : p ∈ ps) (hfail : parseDirective s p.1 p.2 = none) :
    scanDirectives s ps = none := by
  induction ps with
  | nil => cases hp
  | cons q qs ih =>
    rcases List.mem_cons.mp hp with h1 | h2
    · subst h1
      unfold scanDirectives
      rw [hfail]
    · unfold scanDirectives
      cases hq : parseDirective s q.1 q.2 with
      | none => rfl
      | some d => rw [ih h2]; rfl

/-! ## Claim theorems (part 1: the directly computable ones) -/

/-- Claim C10: EasyLocated.map leaves the location unchanged and only
replaces the inner value by the transform's result. -/
theorem c10_map_preserves_location (X Y : Type) (f : X → Y) (a : EasyLocated X) :
    (EasyLocated.map f a).loc = a.loc ∧ (EasyLocated.map f a).inner = f a.inner :=
  ⟨rfl, rfl⟩

/-- Claim C8: equality, ordering, hashing and display of EasyLocated values
delegate to the wrapped inner values and ignore the location ranges: two
values with equal inner values compare equal, hash identically and display
identically, whatever their locations. -/
theorem c8_delegation_ignores_location (X : Type) [DecidableEq X]
    (a b : EasyLocated X) (hab : a.inner = b.inner) :
    EasyLocated.eqv (fun x y => decide (x = y)) a b = true ∧
    (∀ (c : X → X → Ordering), EasyLocated.cmpWith c a b = c a.inner a.inner) ∧
    (∀ (H : Type) (h : X → H → H) (st : H),
      EasyLocated.hashWith h a st = EasyLocated.hashWith h b st) ∧
    (∀ (d : X → String), EasyLocated.displayWith d a = EasyLocated.displayWith d b) ∧
    (∀ (e : X → X → Bool), EasyLocated.eqv e a b = e b.inner b.inner) := by
  refine ⟨?_, ?_, ?_, ?_, ?_⟩ <;>
    simp [EasyLocated.eqv, EasyLocated.cmpWith, EasyLocated.hashWith,
      EasyLocated.displayWith, hab]

theorem c8_delegation_ignores_location_witness :
    (EasyLocated.mk 3 (Span.mk 0 1)).inner = (EasyLocated.mk 3 (Span.mk 5 9)).inner ∧
    (EasyLocated.eqv (fun x y => decide (x = y))
        (EasyLocated.mk 3 (Span.mk 0 1)) (EasyLocated.mk 3 (Span.mk 5 9)) = true ∧
      (∀ (c : Nat → Nat → Ordering),
        EasyLocated.cmpWith c (EasyLocated.mk 3 (Span.mk 0 1)) (EasyLocated.mk 3 (Span.mk 5 9)) =
          c (EasyLocated.mk 3 (Span.mk 0 1)).inner (EasyLocated.mk 3 (Span.mk 0 1)).inner) ∧
      (∀ (H : Type) (h : Nat → H → H) (st : H),
        EasyLocated.hashWith h (EasyLocated.mk 3 (Span.mk 0 1)) st =
          EasyLocated.hashWith h (EasyLocated.mk 3 (Span.mk 5 9)) st) ∧
      (∀ (d : Nat → String),
        EasyLocated.displayWith d (EasyLocated.mk 3 (Span.mk 0 1)) =
          EasyLocated.displayWith d (EasyLocated.mk 3 (Span.mk 5 9))) ∧
      (∀ (e : Nat → Nat → Bool),
        EasyLocated.eqv e (EasyLocated.mk 3 (Span.mk 0 1)) (EasyLocated.mk 3 (Span.mk 5 9)) =
          e (EasyLocated.mk 3 (Span.mk 5 9)).inner (EasyLocated.mk 3 (Span.mk 5 9)).inner)) :=
  ⟨rfl, c8_delegation_ignores_location Nat (EasyLocated.mk 3 (Span.mk 0 1))
    (EasyLocated.mk 3 (Span.mk 5 9)) rfl⟩

/-- Claim C3 is false on the code: a line that begins with the marker token
but fails the directive grammar is not treated as ordinary content;
construction panics.  Here the buffer is a bare marker line followed by a
newline: its single line starts with the marker, and construction fails. -/
theorem c3_counterexample :
    PreprocessedFile.new ("#line\n".toList) = none ∧
    startsWithMarker (lineContent ("#line\n".toList) (Span.mk 0 5)) = true ∧
    (lineRanges ("#line\n".toList)).getD 0 default = Span.mk 0 5 := by
  exact ⟨by rfl, by rfl, by rfl⟩

/-- Claim C3 amended: a line that begins with the marker token but fails
the directive grammar is treated as a directive attempt whose parse
failure aborts the whole construction (a panic, modelled by none) instead
of being treated as ordinary content. -/
theorem c3_marker_parse_failure_aborts (s : List Char) (p : Nat × Span)
    (hmem : p ∈ markedLines s) (hfail : parseDirective s p.1 p.2 = none) :
    PreprocessedFile.new s = none := by
  unfold PreprocessedFile.new directivesOf
  rw [scanDirectives_none_of_mem s (markedLines s) p hmem hfail]

theorem c3_marker_parse_failure_aborts_witness :
    ((0, Span.mk 0 5) ∈ markedLines ("#line\n".toList) ∧
      parseDirective ("#line\n".toList) 0 (Span.mk 0 5) = none) ∧
    PreprocessedFile.new ("#line\n".toList) = none :=
  ⟨⟨by decide, by rfl⟩,
    c3_marker_parse_failure_aborts ("#line\n".toList) (0, Span.mk 0 5) (by decide) (by rfl)⟩

/-- Claim C7 is false as stated on one point: the out-of-range error does
report the requested index, but the reported maximum is the line count
(here 2), not the maximum valid index (here 1). -/
theorem c7_counterexample :
    ((PreprocessedFile.new ("a\nb\n".toList)).map (fun pf =>
      (decide (FileSlice.mk (Span.mk 0 0) (Span.mk 0 3) (Span.mk 0 2) 0 ∈ pf.ids),
        pf.line_range (FileSlice.mk (Span.mk 0 0) (Span.mk 0 3) (Span.mk 0 2) 0) 5,
        pf.lines.length))) =
      some (true, Except.error (FilesError.lineTooLarge 5 2), 2) ∧
    (2 : Nat) ≠ 2 - 1 := by
  exact ⟨by rfl, by decide⟩

/-- Claim C7 amended: when the computed flattened index (original index
plus segment offset, after the usize cast) falls outside the Line Table,
line_range fails with a line-too-large error reporting the requested
index and the total line count (one more than the maximum valid index). -/
theorem c7_line_range_out_of_range (pf : PreprocessedFile) (id : FileSlice) (li : Nat)
    (hout : pf.lines.length ≤ usizeOfInt (isizeOfNat li + id.offset)) :
    pf.line_range id li = Except.error (FilesError.lineTooLarge li pf.lines.length) := by
  unfold PreprocessedFile.line_range
  rw [List.get?_eq_none.mpr hout]

theorem c7_line_range_out_of_range_witness :
    ((PreprocessedFile.mk [FileSlice.mk (Span.mk 0 0) (Span.mk 0 3) (Span.mk 0 2) 0]
        [Span.mk 0 1, Span.mk 2 3] ("a\nb\n".toList)).lines.length ≤
      usizeOfInt (isizeOfNat 5 + (FileSlice.mk (Span.mk 0 0) (Span.mk 0 3) (Span.mk 0 2) 0).offset)) ∧
    (PreprocessedFile.mk [FileSlice.mk (Span.mk 0 0) (Span.mk 0 3) (Span.mk 0 2) 0]
        [Span.mk 0 1, Span.mk 2 3] ("a\nb\n".toList)).line_range
      (FileSlice.mk (Span.mk 0 0) (Span.mk 0 3) (Span.mk 0 2) 0) 5 =
      Except.error (FilesError.lineTooLarge 5
        (PreprocessedFile.mk [FileSlice.mk (Span.mk 0 0) (Span.mk 0 3) (Span.mk 0 2) 0]
          [Span.mk 0 1, Span.mk 2 3] ("a\nb\n".toList)).lines.length) :=
  ⟨by decide,
    c7_line_range_out_of_range
      (PreprocessedFile.mk [FileSlice.mk (Span.mk 0 0) (Span.mk 0 3) (Span.mk 0 2) 0]
        [Span.mk 0 1, Span.mk 2 3] ("a\nb\n".toList))
      (FileSlice.mk (Span.mk 0 0) (Span.mk 0 3) (Span.mk 0 2) 0) 5 (by decide)⟩

/-! ## Generic list helpers -/

theorem getD_eq_get' {α : Type} (xs : List α) (i : Nat) (d : α) (h : i < xs.length) :
    xs.getD i d = xs.get ⟨i, h⟩ := by
  rw [List.getD_eq_get?, List.get?_eq_get h]
  rfl

theorem getD_mem' {α : Type} (xs : List α) (i : Nat) (d : α) (h : i < xs.length) :
    xs.getD i d ∈ xs := by
  rw [getD_eq_get' xs i d h]
  exact List.get_mem xs i h

theorem zipWith_getD {α β γ : Type} [Inhabited α] [Inhabited β] [Inhabited γ]
    (f : α → β → γ) (as : List α) (bs : List β) (i : Nat)
    (h : i < (List.zipWith f as bs).length) :
    (List.zipWith f as bs).getD i default = f (as.getD i default) (bs.getD i default) := by
  induction as generalizing bs i with
  | nil => simp at h
  | cons a as ih =>
    cases bs with
    | nil => simp at h
    | cons b bs =>
      cases i with
      | zero => rfl
      | succ i =>
        have h' : i < (List.zipWith f as bs).length := by
          simp only [List.length_zipWith, lt_min_iff, List.length_cons] at h ⊢
          omega
        simpa using ih bs i h'

theorem pairwise_getD {α : Type} [Inhabited α] {R : α → α → Prop} {xs : List α}
    (h : List.Pairwise R xs) (i j : Nat) (hij : i < j) (hj : j < xs.length) :
    R (xs.getD i default) (xs.getD j default) := by
  rw [getD_eq_get' xs i default (Nat.lt_trans hij hj), getD_eq_get' xs j default hj]
  exact List.pairwise_iff_get.mp h ⟨i, Nat.lt_trans hij hj⟩ ⟨j, hj⟩ hij

theorem sep_of_adj {α : Type} [Inhabited α] (f : α → Span) (xs : List α)
    (hadj : ∀ i, i + 1 < xs.length →
      (f (xs.getD i default)).stop < (f (xs.getD (i + 1) default)).start)
    (hse : ∀ i, i < xs.length →
      (f (xs.getD i default)).start ≤ (f (xs.getD i default)).stop) :
    ∀ j i, i < j → j < xs.length →
      (f (xs.getD i default)).stop < (f (xs.getD j default)).start := by
  intro j
  induction j with
  | zero => intro i h; omega
  | succ j ih =>
    intro i hij hj
    rcases Nat.lt_succ_iff_lt_or_eq.mp hij with h | h
    · have hj' : j < xs.length := Nat.lt_of_succ_lt hj
      calc (f (xs.getD i default)).stop < (f (xs.getD j default)).start := ih i h hj'
        _ ≤ (f (xs.getD j default)).stop := hse j hj'
        _ < (f (xs.getD (j + 1) default)).start := hadj j hj
    · subst h
      exact hadj i hj

theorem nat_ivt (g : Nat → Nat) :
    ∀ (n b : Nat), g 0 ≤ b → b < g n → ∃ l, l < n ∧ g l ≤ b ∧ b < g (l + 1) := by
  intro n
  induction n with
  | zero => intro b h0 hn; omega
  | succ n ih =>
    intro b h0 hn
    by_cases h : g n ≤ b
    · exact ⟨n, Nat.lt_succ_self n, h, hn⟩
    · rcases ih b h0 (Nat.lt_of_not_le h) with ⟨l, hl, h1, h2⟩
      exact ⟨l, Nat.lt_succ_of_lt hl, h1, h2⟩

theorem count_lt_of_sorted_split (b : Nat) :
    ∀ (xs : List Nat) (k : Nat), k ≤ xs.length →
    (∀ j, j < k → xs.getD j 0 < b) →
    (∀ j, k ≤ j → j < xs.length → ¬ xs.getD j 0 < b) →
    (xs.filter (fun p => decide (p < b))).length = k := by
  intro xs
  induction xs with
  | nil =>
    intro k hk _ _
    simp only [List.length_nil, Nat.le_zero] at hk
    simp [hk]
  | cons x xs ih =>
    intro k hk hlt hge
    cases k with
    | zero =>
      have hall : ∀ a ∈ x :: xs, ¬ ((fun p => decide (p < b)) a = true) := by
        intro a ha
        rcases List.mem_iff_get.mp ha with ⟨⟨j, hj⟩, rfl⟩
        have hx := hge j (Nat.zero_le j) hj
        rw [getD_eq_get' (x :: xs) j 0 hj] at hx
        simpa using hx
      rw [List.filter_eq_nil.mpr hall]
      rfl
    | succ k =>
      have hx : x < b := by
        have := hlt 0 (Nat.succ_pos k)
        simpa using this
      rw [List.filter_cons]
      simp only [hx, decide_True, if_true]
      rw [List.length_cons]
      congr 1
      refine ih k (by simpa using Nat.le_of_succ_le_succ hk) ?_ ?_
      · intro j hj
        have := hlt (j + 1) (Nat.succ_lt_succ hj)
        simpa using this
      · intro j h1 h2
        have := hge (j + 1) (Nat.succ_le_succ h1) (by simpa using Nat.succ_lt_succ h2)
        simpa using this

/-! ## Line table facts -/

theorem nlPositions_ge (s : List Char) : ∀ (i p : Nat), p ∈ nlPositions s i → i ≤ p := by
  induction s with
  | nil => intro i p hp; simp [nlPositions] at hp
  | cons c cs ih =>
    intro i p hp
    simp only [nlPositions] at hp
    by_cases hc : c = '\n'
    · rw [if_pos hc] at hp
      rcases List.mem_cons.mp hp with h | h
      · omega
      · have := ih (i + 1) p h; omega
    · rw [if_neg hc] at hp
      have := ih (i + 1) p hp
      omega

theorem nlPositions_lt (s : List Char) : ∀ (i p : Nat), p ∈ nlPositions s i → p < i + s.length := by
  induction s with
  | nil => intro i p hp; simp [nlPositions] at hp
  | cons c cs ih =>
    intro i p hp
    simp only [nlPositions] at hp
    simp only [List.length_cons]
    by_cases hc : c = '\n'
    · rw [if_pos hc] at hp
      rcases List.mem_cons.mp hp with h | h
      · omega
      · have := ih (i + 1) p h; omega
    · rw [if_neg hc] at hp
      have := ih (i + 1) p hp
      omega

theorem nlPositions_chain (s : List Char) :
    ∀ (i : Nat), List.Chain' (fun a b => a < b) (nlPositions s i) := by
  induction s with
  | nil => intro i; simp [nlPositions]
  | cons c cs ih =>
    intro i
    simp only [nlPositions]
    by_cases hc : c = '\n'
    · rw [if_pos hc]
      rw [List.chain'_cons']
      refine ⟨?_, ih (i + 1)⟩
      intro y hy
      have := nlPositions_ge cs (i + 1) y (List.mem_of_mem_head? hy)
      omega
    · rw [if_neg hc]
      exact ih (i + 1)

theorem nlPositions_count (s : List Char) : ∀ (i b : Nat),
    ((nlPositions s i).filter (fun p => decide (p < i + b))).length =
    ((s.take b).filter (fun c => decide (c = '\n'))).length := by
  induction s with
  | nil => intro i b; simp [nlPositions]
  | cons c cs ih =>
    intro i b
    cases b with
    | zero =>
      simp only [List.take_zero, List.filter_nil, List.length_nil, Nat.add_zero]
      have hall : ∀ p ∈ nlPositions (c :: cs) i, ¬ ((fun p => decide (p < i)) p = true) := by
        intro p hp
        have := nlPositions_ge (c :: cs) i p hp
        simp
        omega
      rw [List.filter_eq_nil.mpr hall]
      rfl
    | succ b =>
      have harith : i + (b + 1) = (i + 1) + b := by omega
      simp only [nlPositions, List.take_succ_cons, List.filter_cons]
      by_cases hc : c = '\n'
      · rw [if_pos hc]
        rw [List.filter_cons]
        have h1 : (fun p => decide (p < i + (b + 1))) i = true := by simp
        simp only [h1, if_true, hc, decide_True, List.length_cons]
        congr 1
        rw [harith]
        exact ih (i + 1) b
      · rw [if_neg hc]
        have h2 : (fun x => decide (x = '\n')) c = false := by simp [hc]
        simp only [h2, Bool.false_eq_true, if_false]
        rw [harith]
        exact ih (i + 1) b

theorem lineEndings_cases (s : List Char) :
    (lineEndings s = nlPositions s 0 ∧
        (nlPositions s 0).getLast? = some (s.length - 1)) ∨
      (lineEndings s = nlPositions s 0 ++ [s.length] ∧
        ((nlPositions s 0).getLast? = none ∨
          ∃ l, (nlPositions s 0).getLast? = some l ∧ l ≠ s.length - 1)) := by
  cases h : (nlPositions s 0).getLast? with
  | none =>
    right
    refine ⟨?_, Or.inl rfl⟩
    unfold lineEndings
    rw [h]
  | some l =>
    by_cases hl : l = s.length - 1
    · left
      refine ⟨?_, ?_⟩
      · unfold lineEndings
        rw [h]
        simp [hl]
      · rw [hl]
    · right
      refine ⟨?_, Or.inr ⟨l, rfl, hl⟩⟩
      unfold lineEndings
      rw [h]
      simp [hl]

theorem lineEndings_ne_nil (s : List Char) : lineEndings s ≠ [] := by
  rcases lineEndings_cases s with ⟨he, hne⟩ | ⟨he, _⟩
  · rw [he]
    intro hnil
    rw [hnil] at hne
    simp at hne
  · rw [he]; simp

theorem lineEndings_chain (s : List Char) :
    List.Chain' (fun a b => a < b) (lineEndings s) := by
  have hc := nlPositions_chain s 0
  rcases lineEndings_cases s with ⟨he, _⟩ | ⟨he, _⟩
  · rw [he]; exact hc
  · rw [he]
    rw [List.chain'_append]
    refine ⟨hc, List.chain'_singleton _, ?_⟩
    intro x hx y hy
    simp only [List.head?_cons, Option.mem_def, Option.some.injEq] at hy
    subst hy
    have hxm : x ∈ nlPositions s 0 := List.mem_of_mem_getLast? hx
    have := nlPositions_lt s 0 x hxm
    omega

theorem lineEndings_le_length (s : List Char) : ∀ p ∈ lineEndings s, p ≤ s.length := by
  intro p hp
  have hnp : ∀ q ∈ nlPositions s 0, q ≤ s.length := by
    intro q hq
    have := nlPositions_lt s 0 q hq
    omega
  rcases lineEndings_cases s with ⟨he, _⟩ | ⟨he, _⟩
  · rw [he] at hp
    exact hnp p hp
  · rw [he] at hp
    rcases List.mem_append.mp hp with h1 | h1
    · exact hnp p h1
    · simp at h1; omega

theorem lineEndings_pairwise (s : List Char) :
    List.Pairwise (fun a b => a < b) (lineEndings s) :=
  (List.chain'_iff_pairwise.mp (lineEndings_chain s))

theorem lineRanges_length (s : List Char) :
    (lineRanges s).length = (lineEndings s).length := by
  unfold lineRanges
  simp only [List.length_zipWith, List.length_cons, List.length_map]
  omega

theorem lineRanges_ne_nil (s : List Char) : lineRanges s ≠ [] := by
  have h1 := lineEndings_ne_nil s
  have h2 := lineRanges_length s
  intro hnil
  rw [hnil] at h2
  simp only [List.length_nil] at h2
  exact h1 (List.length_eq_zero.mp h2.symm)

theorem nat_default_eq : (default : Nat) = 0 := rfl

theorem lineRanges_getD (s : List Char) (i : Nat) (h : i < (lineRanges s).length) :
    (lineRanges s).getD i default =
      Span.mk (if i = 0 then 0 else (lineEndings s).getD (i - 1) 0 + 1)
        ((lineEndings s).getD i 0) := by
  have hlen : i < (lineEndings s).length := by rw [← lineRanges_length s]; exact h
  unfold lineRanges
  rw [zipWith_getD _ _ _ i (by exact h)]
  have hstart : (0 :: (lineEndings s).map (fun e => e + 1)).getD i default =
      (if i = 0 then 0 else (lineEndings s).getD (i - 1) 0 + 1) := by
    cases i with
    | zero => rfl
    | succ j =>
      simp only [List.getD_cons_succ, Nat.succ_sub_one, if_neg (Nat.succ_ne_zero j)]
      rw [List.getD_eq_get?, List.getD_eq_get?]
      have hj : j < (lineEndings s).length := Nat.lt_of_succ_lt hlen
      rw [List.get?_map, List.get?_eq_get hj]
      simp
  rw [hstart, nat_default_eq]

theorem lr_stop (s : List Char) (i : Nat) (h : i < (lineRanges s).length) :
    ((lineRanges s).getD i default).stop = (lineEndings s).getD i 0 := by
  rw [lineRanges_getD s i h]

theorem lr_start_zero (s : List Char) :
    ((lineRanges s).getD 0 default).start = 0 := by
  have h : 0 < (lineRanges s).length :=
    List.length_pos.mpr (lineRanges_ne_nil s)
  rw [lineRanges_getD s 0 h]
  simp

theorem le_getD_lt (s : List Char) (i j : Nat) (hij : i < j) (hj : j < (lineEndings s).length) :
    (lineEndings s).getD i 0 < (lineEndings s).getD j 0 := by
  have := List.pairwise_iff_get.mp (lineEndings_pairwise s) ⟨i, Nat.lt_trans hij hj⟩ ⟨j, hj⟩ hij
  rwa [getD_eq_get' _ i 0 (Nat.lt_trans hij hj), getD_eq_get' _ j 0 hj]

theorem lr_start_succ (s : List Char) (i : Nat) (h : i + 1 < (lineRanges s).length) :
    ((lineRanges s).getD (i + 1) default).start = ((lineRanges s).getD i default).stop + 1 := by
  rw [lineRanges_getD s (i + 1) h, lineRanges_getD s i (Nat.lt_of_succ_lt h)]
  simp

theorem lr_start_le_stop (s : List Char) (i : Nat) (h : i < (lineRanges s).length) :
    ((lineRanges s).getD i default).start ≤ ((lineRanges s).getD i default).stop := by
  rw [lineRanges_getD s i h]
  cases i with
  | zero => simp
  | succ j =>
    simp only [if_neg (Nat.succ_ne_zero j), Nat.succ_sub_one]
    have hj : j + 1 < (lineEndings s).length := by rw [← lineRanges_length s]; exact h
    have := le_getD_lt s j (j + 1) (Nat.lt_succ_self j) hj
    omega

theorem lr_stop_le_len (s : List Char) (i : Nat) (h : i < (lineRanges s).length) :
    ((lineRanges s).getD i default).stop ≤ s.length := by
  rw [lr_stop s i h]
  have hlen : i < (lineEndings s).length := by rw [← lineRanges_length s]; exact h
  exact lineEndings_le_length s _ (getD_mem' _ i 0 hlen)

theorem lr_sep (s : List Char) (i j : Nat) (hij : i < j) (hj : j < (lineRanges s).length) :
    ((lineRanges s).getD i default).stop < ((lineRanges s).getD j default).start := by
  rw [lineRanges_getD s i (Nat.lt_trans hij hj), lineRanges_getD s j hj]
  have hj0 : j ≠ 0 := by omega
  simp only [if_neg hj0]
  have hjlen : j < (lineEndings s).length := by rw [← lineRanges_length s]; exact hj
  rcases Nat.lt_or_ge i (j - 1) with h | h
  · have := le_getD_lt s i (j - 1) h (by omega)
    omega
  · have hieq : i = j - 1 := by omega
    subst hieq
    omega

theorem getLastD_eq_getD {α : Type} [Inhabited α] (xs : List α) (h : xs ≠ []) :
    xs.getLastD default = xs.getD (xs.length - 1) default := by
  have hpos : 0 < xs.length := List.length_pos.mpr h
  rw [List.getLastD_eq_getLast?, List.getLast?_eq_get?, List.get?_eq_get (by omega)]
  rw [getD_eq_get' xs (xs.length - 1) default (by omega)]
  rfl

theorem lineStart_lo (lr : List Span) (l : Nat) (h : l < lr.length) :
    lineStart lr l = (lr.getD l default).start := by
  unfold lineStart
  rw [if_pos h]

theorem lineStart_hi (lr : List Span) (l : Nat) (h : lr.length ≤ l) :
    lineStart lr l = (lr.getLastD default).stop := by
  unfold lineStart
  rw [if_neg (by omega)]

theorem lineStart_le_succ (s : List Char) (l : Nat) :
    lineStart (lineRanges s) l ≤ lineStart (lineRanges s) (l + 1) := by
  by_cases h1 : l + 1 < (lineRanges s).length
  · have h0 : l < (lineRanges s).length := by omega
    rw [lineStart_lo _ _ h0, lineStart_lo _ _ h1, lr_start_succ s l h1]
    have := lr_start_le_stop s l h0
    omega
  · by_cases h0 : l < (lineRanges s).length
    · rw [lineStart_lo _ _ h0, lineStart_hi _ _ (by omega)]
      rw [getLastD_eq_getD _ (lineRanges_ne_nil s)]
      have hl : (lineRanges s).length - 1 = l := by omega
      rw [hl]
      exact lr_start_le_stop s l h0
    · rw [lineStart_hi _ _ (by omega), lineStart_hi _ _ (by omega)]

theorem lineStart_mono (s : List Char) (i j : Nat) (hij : i ≤ j) :
    lineStart (lineRanges s) i ≤ lineStart (lineRanges s) j := by
  induction hij with
  | refl => exact Nat.le_refl _
  | step h ih => exact Nat.le_trans ih (lineStart_le_succ s _)

theorem lineStart_succ_gt (s : List Char) (l : Nat) (h : l + 1 < (lineRanges s).length) :
    lineStart (lineRanges s) l < lineStart (lineRanges s) (l + 1) := by
  have h0 : l < (lineRanges s).length := by omega
  rw [lineStart_lo _ _ h0, lineStart_lo _ _ h, lr_start_succ s l h]
  have := lr_start_le_stop s l h0
  omega

theorem lineStart_strict (s : List Char) (i j : Nat) (hij : i < j)
    (h : i + 1 < (lineRanges s).length) :
    lineStart (lineRanges s) i < lineStart (lineRanges s) j :=
  Nat.lt_of_lt_of_le (lineStart_succ_gt s i h) (lineStart_mono s (i + 1) j hij)

theorem lineStart_gap (s : List Char) (l : Nat) (h : l < (lineRanges s).length)
    (hne : ((lineRanges s).getD l default).start < ((lineRanges s).getD l default).stop) :
    lineStart (lineRanges s) l < lineStart (lineRanges s) (l + 1) := by
  by_cases h1 : l + 1 < (lineRanges s).length
  · exact lineStart_succ_gt s l h1
  · rw [lineStart_lo _ _ h, lineStart_hi _ _ (by omega)]
    rw [getLastD_eq_getD _ (lineRanges_ne_nil s)]
    have hl : (lineRanges s).length - 1 = l := by omega
    rw [hl]
    exact hne

theorem lineStart_le_length (s : List Char) (l : Nat) :
    lineStart (lineRanges s) l ≤ s.length := by
  by_cases h : l < (lineRanges s).length
  · rw [lineStart_lo _ _ h]
    exact Nat.le_trans (lr_start_le_stop s l h) (lr_stop_le_len s l h)
  · rw [lineStart_hi _ _ (by omega)]
    rw [getLastD_eq_getD _ (lineRanges_ne_nil s)]
    have hpos : 0 < (lineRanges s).length := List.length_pos.mpr (lineRanges_ne_nil s)
    exact lr_stop_le_len s _ (by omega)

theorem lineStart_zero (s : List Char) : lineStart (lineRanges s) 0 = 0 := by
  have hpos : 0 < (lineRanges s).length := List.length_pos.mpr (lineRanges_ne_nil s)
  rw [lineStart_lo _ _ hpos]
  exact lr_start_zero s

theorem lastStop_ge (s : List Char) :
    s.length ≤ ((lineRanges s).getLastD default).stop + 1 := by
  have hne := lineEndings_ne_nil s
  have hpos : 0 < (lineEndings s).length := List.length_pos.mpr hne
  have hlen := lineRanges_length s
  have hposr : 0 < (lineRanges s).length := by omega
  rw [getLastD_eq_getD _ (lineRanges_ne_nil s)]
  rw [lr_stop s _ (by omega)]
  have hgl : (lineEndings s).getLast? = some ((lineEndings s).getD ((lineEndings s).length - 1) 0) := by
    rw [List.getLast?_eq_get?, List.get?_eq_get (by omega)]
    rw [getD_eq_get' _ _ 0 (by omega)]
  have hcases : (lineEndings s).getLast? = some (s.length - 1) ∨
      (lineEndings s).getLast? = some s.length := by
    rcases lineEndings_cases s with ⟨he, hl⟩ | ⟨he, _⟩
    · left; rw [he]; exact hl
    · right; rw [he]; simp
  rw [hlen]
  rcases hcases with h | h <;> rw [hgl] at h <;>
    simp only [Option.some.injEq] at h <;> omega

/-! ## Binary search facts -/

theorem ordRank_le_one_ne_gt (o : Ordering) (h : ordRank o ≤ 1) : o ≠ Ordering.gt := by
  cases o <;> simp_all [ordRank]

theorem ordRank_ge_two_eq_gt (o : Ordering) (h : 2 ≤ ordRank o) : o = Ordering.gt := by
  cases o <;> simp_all [ordRank]

theorem bsGo_zero {α : Type} [Inhabited α] (f : α → Ordering) (xs : List α)
    (base size : Nat) : bsGo f xs 0 base size = base := rfl

theorem bsGo_succ_small {α : Type} [Inhabited α] (f : α → Ordering) (xs : List α)
    (fuel base size : Nat) (h : size ≤ 1) : bsGo f xs (fuel + 1) base size = base := by
  simp only [bsGo, if_pos h]

theorem bsGo_succ_gt {α : Type} [Inhabited α] (f : α → Ordering) (xs : List α)
    (fuel base size : Nat) (h : ¬ size ≤ 1)
    (hf : f (xs.getD (base + size / 2) default) = Ordering.gt) :
    bsGo f xs (fuel + 1) base size = bsGo f xs fuel base (size - size / 2) := by
  simp only [bsGo, if_neg h, hf]

theorem bsGo_succ_lt {α : Type} [Inhabited α] (f : α → Ordering) (xs : List α)
    (fuel base size : Nat) (h : ¬ size ≤ 1)
    (hf : f (xs.getD (base + size / 2) default) = Ordering.lt) :
    bsGo f xs (fuel + 1) base size = bsGo f xs fuel (base + size / 2) (size - size / 2) := by
  simp only [bsGo, if_neg h, hf]

theorem bsGo_succ_eq {α : Type} [Inhabited α] (f : α → Ordering) (xs : List α)
    (fuel base size : Nat) (h : ¬ size ≤ 1)
    (hf : f (xs.getD (base + size / 2) default) = Ordering.eq) :
    bsGo f xs (fuel + 1) base size = bsGo f xs fuel (base + size / 2) (size - size / 2) := by
  simp only [bsGo, if_neg h, hf]

theorem bsGo_range {α : Type} [Inhabited α] (f : α → Ordering) (xs : List α) :
    ∀ (fuel base size : Nat), 1 ≤ size →
      base ≤ bsGo f xs fuel base size ∧ bsGo f xs fuel base size < base + size := by
  intro fuel
  induction fuel with
  | zero =>
    intro base size hs
    rw [bsGo_zero]
    omega
  | succ fuel ih =>
    intro base size hs
    by_cases h1 : size ≤ 1
    · rw [bsGo_succ_small f xs fuel base size h1]; omega
    · have hhalf1 : 1 ≤ size / 2 := by omega
      have hhalf2 : size / 2 < size := by omega
      cases hf : f (xs.getD (base + size / 2) default) with
      | gt =>
        rw [bsGo_succ_gt f xs fuel base size h1 hf]
        have := ih base (size - size / 2) (by omega)
        omega
      | lt =>
        rw [bsGo_succ_lt f xs fuel base size h1 hf]
        have := ih (base + size / 2) (size - size / 2) (by omega)
        omega
      | eq =>
        rw [bsGo_succ_eq f xs fuel base size h1 hf]
        have := ih (base + size / 2) (size - size / 2) (by omega)
        omega

theorem bsGo_spec {α : Type} [Inhabited α] (f : α → Ordering) (xs : List α) :
    ∀ (fuel base size : Nat), 1 ≤ size → size ≤ fuel + 1 → base + size ≤ xs.length →
    MonoCmp f xs →
    (∀ i, base + size ≤ i → i < xs.length → f (xs.getD i default) = Ordering.gt) →
    (base = 0 ∨ f (xs.getD base default) ≠ Ordering.gt) →
    ((∀ i, i < bsGo f xs fuel base size → i < xs.length →
        ordRank (f (xs.getD i default)) ≤ ordRank (f (xs.getD (bsGo f xs fuel base size) default))) ∧
      (∀ i, bsGo f xs fuel base size < i → i < xs.length → f (xs.getD i default) = Ordering.gt) ∧
      (bsGo f xs fuel base size = 0 ∨ f (xs.getD (bsGo f xs fuel base size) default) ≠ Ordering.gt) ∧
      bsGo f xs fuel base size < xs.length) := by
  intro fuel
  induction fuel with
  | zero =>
    intro base size h1 h2 h3 hmono hright hbase
    have hsz : size = 1 := by omega
    subst hsz
    rw [bsGo_zero]
    refine ⟨?_, ?_, hbase, by omega⟩
    · intro i hi hlen
      exact hmono i base hi (by omega)
    · intro i hi hlen
      exact hright i (by omega) hlen
  | succ fuel ih =>
    intro base size h1 h2 h3 hmono hright hbase
    by_cases hs1 : size ≤ 1
    · have hsz : size = 1 := by omega
      subst hsz
      rw [bsGo_succ_small f xs fuel base 1 hs1]
      refine ⟨?_, ?_, hbase, by omega⟩
      · intro i hi hlen
        exact hmono i base hi (by omega)
      · intro i hi hlen
        exact hright i (by omega) hlen
    · have hhalf1 : 1 ≤ size / 2 := by omega
      have hhalf2 : size / 2 < size := by omega
      have hhalfle : size / 2 ≤ size - size / 2 := by omega
      have hmidlen : base + size / 2 < xs.length := by omega
      cases hf : f (xs.getD (base + size / 2) default) with
      | gt =>
        rw [bsGo_succ_gt f xs fuel base size hs1 hf]
        have hright2 : ∀ i, base + (size - size / 2) ≤ i → i < xs.length →
            f (xs.getD i default) = Ordering.gt := by
          intro i hi hlen
          rcases Nat.eq_or_lt_of_le (show base + size / 2 ≤ i by omega) with h | h
          · rw [← h]; exact hf
          · have := hmono (base + size / 2) i h hlen
            rw [hf] at this
            exact ordRank_ge_two_eq_gt _ (by simpa [ordRank] using this)
        exact ih base (size - size / 2) (by omega) (by omega) (by omega) hmono hright2 hbase
      | lt =>
        rw [bsGo_succ_lt f xs fuel base size hs1 hf]
        have hbase2 : base + size / 2 = 0 ∨
            f (xs.getD (base + size / 2) default) ≠ Ordering.gt := by
          right; rw [hf]; simp
        have hright2 : ∀ i, (base + size / 2) + (size - size / 2) ≤ i → i < xs.length →
            f (xs.getD i default) = Ordering.gt := by
          intro i hi hlen
          exact hright i (by omega) hlen
        exact ih (base + size / 2) (size - size / 2) (by omega) (by omega) (by omega)
          hmono hright2 hbase2
      | eq =>
        rw [bsGo_succ_eq f xs fuel base size hs1 hf]
        have hbase2 : base + size / 2 = 0 ∨
            f (xs.getD (base + size / 2) default) ≠ Ordering.gt := by
          right; rw [hf]; simp
        have hright2 : ∀ i, (base + size / 2) + (size - size / 2) ≤ i → i < xs.length →
            f (xs.getD i default) = Ordering.gt := by
          intro i hi hlen
          exact hright i (by omega) hlen
        exact ih (base + size / 2) (size - size / 2) (by omega) (by omega) (by omega)
          hmono hright2 hbase2

theorem binarySearchBy_pos {α : Type} [Inhabited α] (f : α → Ordering) (xs : List α)
    (hne : xs.length ≠ 0) :
    binarySearchBy f xs =
      match f (xs.getD (bsGo f xs xs.length 0 xs.length) default) with
      | Ordering.eq => Sum.inl (bsGo f xs xs.length 0 xs.length)
      | Ordering.lt => Sum.inr (bsGo f xs xs.length 0 xs.length + 1)
      | Ordering.gt => Sum.inr (bsGo f xs xs.length 0 xs.length) := by
  simp only [binarySearchBy, if_neg hne]

theorem bsGo_top_spec {α : Type} [Inhabited α] (f : α → Ordering) (xs : List α)
    (hne : xs ≠ []) (hmono : MonoCmp f xs) :
    ((∀ i, i < bsGo f xs xs.length 0 xs.length → i < xs.length →
        ordRank (f (xs.getD i default)) ≤
          ordRank (f (xs.getD (bsGo f xs xs.length 0 xs.length) default))) ∧
      (∀ i, bsGo f xs xs.length 0 xs.length < i → i < xs.length →
        f (xs.getD i default) = Ordering.gt) ∧
      (bsGo f xs xs.length 0 xs.length = 0 ∨
        f (xs.getD (bsGo f xs xs.length 0 xs.length) default) ≠ Ordering.gt) ∧
      bsGo f xs xs.length 0 xs.length < xs.length) := by
  have hpos : 0 < xs.length := List.length_pos.mpr hne
  exact bsGo_spec f xs xs.length 0 xs.length (by omega) (by omega) (by omega) hmono
    (fun i h1 h2 => by omega) (Or.inl rfl)

theorem binarySearchBy_eq_inl {α : Type} [Inhabited α] (f : α → Ordering) (xs : List α)
    (k : Nat) (hmono : MonoCmp f xs) (hk : k < xs.length)
    (heqk : f (xs.getD k default) = Ordering.eq)
    (huniq : ∀ j, j < xs.length → j ≠ k → f (xs.getD j default) ≠ Ordering.eq) :
    binarySearchBy f xs = Sum.inl k := by
  have hne : xs ≠ [] := by
    intro h
    rw [h] at hk
    simp at hk
  obtain ⟨hl, hr, hb0, hblen⟩ := bsGo_top_spec f xs hne hmono
  have hbk : bsGo f xs xs.length 0 xs.length = k := by
    rcases Nat.lt_trichotomy (bsGo f xs xs.length 0 xs.length) k with h | h | h
    · have hgt := hr k h hk
      rw [heqk] at hgt
      cases hgt
    · exact h
    · have hbne0 : bsGo f xs xs.length 0 xs.length ≠ 0 := by omega
      have hne_gt := hb0.resolve_left hbne0
      have hne_eq := huniq _ hblen (by omega)
      have hlt : f (xs.getD (bsGo f xs xs.length 0 xs.length) default) = Ordering.lt := by
        cases hx : f (xs.getD (bsGo f xs xs.length 0 xs.length) default) <;> simp_all
      have hmo := hmono k _ h hblen
      rw [heqk, hlt] at hmo
      simp [ordRank] at hmo
  rw [binarySearchBy_pos f xs (by omega), hbk, heqk]

theorem binarySearchBy_all_lt {α : Type} [Inhabited α] (f : α → Ordering) (xs : List α)
    (hne : xs ≠ [])
    (hall : ∀ i, i < xs.length → f (xs.getD i default) = Ordering.lt) :
    binarySearchBy f xs = Sum.inr xs.length := by
  have hpos : 0 < xs.length := List.length_pos.mpr hne
  have hmono : MonoCmp f xs := by
    intro i j hij hj
    rw [hall i (Nat.lt_trans hij hj), hall j hj]
  obtain ⟨hl, hr, hb0, hblen⟩ := bsGo_top_spec f xs hne hmono
  have hlast : bsGo f xs xs.length 0 xs.length = xs.length - 1 := by
    by_contra h
    have hbl : bsGo f xs xs.length 0 xs.length + 1 < xs.length := by omega
    have := hr (bsGo f xs xs.length 0 xs.length + 1) (Nat.lt_succ_self _) hbl
    rw [hall _ hbl] at this
    cases this
  rw [binarySearchBy_pos f xs (by omega), hall _ hblen, hlast]
  have : xs.length - 1 + 1 = xs.length := by omega
  rw [this]

theorem binarySearchBy_inl_lt {α : Type} [Inhabited α] (f : α → Ordering) (xs : List α)
    (i : Nat) (h : binarySearchBy f xs = Sum.inl i) : i < xs.length := by
  by_cases hz : xs.length = 0
  · unfold binarySearchBy at h
    rw [if_pos hz] at h
    cases h
  · rw [binarySearchBy_pos f xs hz] at h
    have hrange := bsGo_range f xs xs.length 0 xs.length (by omega)
    cases hf : f (xs.getD (bsGo f xs xs.length 0 xs.length) default) with
    | eq =>
      rw [hf] at h
      simp only [Sum.inl.injEq] at h
      omega
    | lt => rw [hf] at h; cases h
    | gt => rw [hf] at h; cases h

theorem sliceCmp_eq_lineCmp (byte : Nat) :
    sliceCmp byte = fun sl => lineCmp byte sl.bytes := rfl

theorem monoCmp_of_sep {α : Type} [Inhabited α] (f : α → Span) (byte : Nat) (xs : List α)
    (hsep : ∀ i j, i < j → j < xs.length →
      (f (xs.getD i default)).stop < (f (xs.getD j default)).start)
    (hse : ∀ i, i < xs.length →
      (f (xs.getD i default)).start ≤ (f (xs.getD i default)).stop) :
    MonoCmp (fun x => lineCmp byte (f x)) xs := by
  intro i j hij hj
  have hsij := hsep i j hij hj
  have hsei := hse i (Nat.lt_trans hij hj)
  by_cases h1 : byte < (f (xs.getD i default)).start
  · have hj1 : byte < (f (xs.getD j default)).start := by omega
    simp only [lineCmp, if_pos h1, if_pos hj1, ordRank]
    omega
  · by_cases h2 : (f (xs.getD i default)).stop < byte
    · simp only [lineCmp, if_neg h1, if_pos h2, ordRank]
      exact Nat.zero_le _
    · have hj1 : byte < (f (xs.getD j default)).start := by omega
      simp only [lineCmp, if_neg h1, if_neg h2, if_pos hj1, ordRank]
      omega

theorem bs_span_eq_inl {α : Type} [Inhabited α] (f : α → Span) (byte : Nat) (xs : List α)
    (k : Nat) (g : α → Ordering) (hg : g = fun x => lineCmp byte (f x))
    (hsep : ∀ i j, i < j → j < xs.length →
      (f (xs.getD i default)).stop < (f (xs.getD j default)).start)
    (hse : ∀ i, i < xs.length →
      (f (xs.getD i default)).start ≤ (f (xs.getD i default)).stop)
    (hk : k < xs.length)
    (h1 : (f (xs.getD k default)).start ≤ byte) (h2 : byte ≤ (f (xs.getD k default)).stop) :
    binarySearchBy g xs = Sum.inl k := by
  subst hg
  apply binarySearchBy_eq_inl _ _ k (monoCmp_of_sep f byte xs hsep hse) hk
  · simp only [lineCmp, if_neg (by omega : ¬ byte < (f (xs.getD k default)).start),
      if_neg (by omega : ¬ (f (xs.getD k default)).stop < byte)]
  · intro j hj hjk
    rcases Nat.lt_or_ge j k with h | h
    · have hs := hsep j k h hk
      have hsej := hse j hj
      simp only [lineCmp, if_neg (by omega : ¬ byte < (f (xs.getD j default)).start),
        if_pos (by omega : (f (xs.getD j default)).stop < byte)]
      simp
    · have hjk2 : k < j := by omega
      have hs := hsep k j hjk2 hj
      simp only [lineCmp, if_pos (by omega : byte < (f (xs.getD j default)).start)]
      simp

theorem bs_span_beyond {α : Type} [Inhabited α] (f : α → Span) (byte : Nat) (xs : List α)
    (g : α → Ordering) (hg : g = fun x => lineCmp byte (f x))
    (hne : xs ≠ [])
    (hse : ∀ i, i < xs.length →
      (f (xs.getD i default)).start ≤ (f (xs.getD i default)).stop)
    (hall : ∀ i, i < xs.length → (f (xs.getD i default)).stop < byte) :
    binarySearchBy g xs = Sum.inr xs.length := by
  subst hg
  apply binarySearchBy_all_lt _ _ hne
  intro i hi
  have h1 := hse i hi
  have h2 := hall i hi
  simp only [lineCmp, if_neg (by omega : ¬ byte < (f (xs.getD i default)).start),
    if_pos h2]

theorem get?_eq_some_getD {α : Type} [Inhabited α] (xs : List α) (k : Nat) (h : k < xs.length) :
    xs.get? k = some (xs.getD k default) := by
  rw [List.get?_eq_get h, getD_eq_get' xs k default h]

/-! ## Directive scan facts -/

theorem scanDirectives_forall₂ (s : List Char) :
    ∀ (ps : List (Nat × Span)) (ds : List LineDirective), scanDirectives s ps = some ds →
      List.Forall₂ (fun p d => parseDirective s p.1 p.2 = some d) ps ds := by
  intro ps
  induction ps with
  | nil =>
    intro ds h
    simp only [scanDirectives, Option.some.injEq] at h
    subst h
    exact List.Forall₂.nil
  | cons p ps ih =>
    intro ds h
    simp only [scanDirectives] at h
    split at h
    · rcases Option.map_eq_some'.mp h with ⟨as, has, rfl⟩
      rename_i d hd
      exact List.Forall₂.cons hd (ih as has)
    · exact Option.noConfusion h

theorem parseDirective_basic (s : List Char) (l : Nat) (r : Span) (d : LineDirective)
    (h : parseDirective s l r = some d) :
    d.line_index = l ∧ d.byte_index = r.start := by
  simp only [parseDirective] at h
  split at h
  · exact Option.noConfusion h
  · split at h
    · split at h
      · injection h with h2
        subst h2
        exact ⟨rfl, rfl⟩
      · exact Option.noConfusion h
    · split at h
      · injection h with h2
        subst h2
        exact ⟨rfl, rfl⟩
      · exact Option.noConfusion h

theorem startsWithMarker_length (cs : List Char) (h : startsWithMarker cs = true) :
    5 ≤ cs.length := by
  rcases cs with _ | ⟨c1, _ | ⟨c2, _ | ⟨c3, _ | ⟨c4, _ | ⟨c5, rest⟩⟩⟩⟩⟩ <;>
    simp_all [startsWithMarker]

theorem markedLines_mem (s : List Char) (p : Nat × Span) (hp : p ∈ markedLines s) :
    p.1 < (lineRanges s).length ∧ (lineRanges s).getD p.1 default = p.2 ∧
      startsWithMarker (lineContent s p.2) = true := by
  unfold markedLines at hp
  rcases List.mem_filter.mp hp with ⟨hmem, hmark⟩
  have hg : (lineRanges s).get? p.1 = some p.2 := by
    rw [List.get?_eq_getElem?]
    exact List.mem_enum_iff_getElem?.mp hmem
  rcases List.get?_eq_some.mp hg with ⟨hlt, hget⟩
  refine ⟨hlt, ?_, hmark⟩
  rw [getD_eq_get' _ p.1 default hlt]
  exact hget

theorem markedLines_pairwise (s : List Char) :
    List.Pairwise (fun p q => p.1 < q.1) (markedLines s) := by
  unfold markedLines
  apply List.Pairwise.sublist (List.filter_sublist _)
  have h1 : List.Pairwise (fun a b => a < b) (List.range (lineRanges s).enum.length) := by
    have := List.pairwise_lt_range (lineRanges s).length
    simpa using this
  have h2 := List.enum_map_fst (lineRanges s)
  have h3 : List.Pairwise (fun a b => a < b) ((lineRanges s).enum.map Prod.fst) := by
    rw [h2]
    exact List.pairwise_lt_range _
  exact (List.pairwise_map).mp h3

theorem forall₂_mem_right {α β : Type} {Q : α → β → Prop} :
    ∀ {xs : List α} {ys : List β}, List.Forall₂ Q xs ys → ∀ b ∈ ys, ∃ a ∈ xs, Q a b := by
  intro xs ys hf
  induction hf with
  | nil => intro b hb; cases hb
  | cons hq hf2 ih =>
    intro b hb
    rcases List.mem_cons.mp hb with h | h
    · subst h
      exact ⟨_, List.mem_cons_self _ _, hq⟩
    · rcases ih b h with ⟨a, ha, hqa⟩
      exact ⟨a, List.mem_cons_of_mem _ ha, hqa⟩

theorem pairwise_of_forall₂ {α β : Type} {Q : α → β → Prop} {R : α → α → Prop}
    {S : β → β → Prop}
    (himp : ∀ a b a2 b2, Q a b → Q a2 b2 → R a a2 → S b b2) :
    ∀ {xs : List α} {ys : List β}, List.Forall₂ Q xs ys →
      List.Pairwise R xs → List.Pairwise S ys := by
  intro xs ys hf
  induction hf with
  | nil => intro _; exact List.Pairwise.nil
  | cons hq hf2 ih =>
    intro hp
    rcases hp with _ | ⟨hhead, htail⟩
    refine List.Pairwise.cons ?_ (ih htail)
    intro b2 hb2
    rcases forall₂_mem_right hf2 b2 hb2 with ⟨a2, ha2, hq2⟩
    exact himp _ _ _ _ hq hq2 (hhead a2 ha2)

theorem directivesOf_facts (s : List Char) (ds : List LineDirective)
    (h : directivesOf s = some ds) :
    List.Pairwise (fun a b => a.line_index < b.line_index) ds ∧
      ∀ d ∈ ds, DirFacts s (lineRanges s) d := by
  have hf := scanDirectives_forall₂ s (markedLines s) ds h
  constructor
  · apply pairwise_of_forall₂ ?_ hf (markedLines_pairwise s)
    intro p d p2 d2 hq hq2 hr
    have h1 := parseDirective_basic s p.1 p.2 d hq
    have h2 := parseDirective_basic s p2.1 p2.2 d2 hq2
    omega
  · intro d hd
    rcases forall₂_mem_right hf d hd with ⟨p, hp, hq⟩
    obtain ⟨hlt, hgd, hmark⟩ := markedLines_mem s p hp
    obtain ⟨hli, hbi⟩ := parseDirective_basic s p.1 p.2 d hq
    have hstople : p.2.stop ≤ s.length := by
      have := lr_stop_le_len s p.1 hlt
      rw [hgd] at this
      exact this
    have hlen5 : 5 ≤ (lineContent s p.2).length := startsWithMarker_length _ hmark
    have hclen : (lineContent s p.2).length = p.2.stop - p.2.start := by
      unfold lineContent
      rw [List.length_drop, List.length_take, Nat.min_eq_left hstople]
    refine ⟨ ?_, ?_, ?_, ?_⟩
    · rw [hli]; exact hlt
    · rw [hli, hgd]; exact hbi
    · rw [hli, hgd]; omega
    · rw [hli, hgd]; exact hmark

theorem head?_eq_headD {α : Type} [Inhabited α] (l : List α) (h : l ≠ []) :
    l.head? = some (l.headD default) := by
  cases l with
  | nil => exact absurd rfl h
  | cons a l => rfl

theorem getLastD_cons_ne_nil {α : Type} [Inhabited α] (l : List α) (a : α) (h : l ≠ []) :
    (a :: l).getLastD default = l.getLastD default := by
  cases l with
  | nil => exact absurd rfl h
  | cons b l2 =>
    rw [List.getLastD_eq_getLast?, List.getLastD_eq_getLast?, List.getLast?_cons_cons]

theorem get?_some_facts (lr : List Span) (i : Nat) (r : Span) (h : lr.get? i = some r) :
    i < lr.length ∧ lr.getD i default = r := by
  rcases List.get?_eq_some.mp h with ⟨hlt, hget⟩
  refine ⟨hlt, ?_⟩
  rw [getD_eq_get' _ i default hlt]
  exact hget

/-! ## Segment builder structure -/

theorem extendSlices_spec (s : List Char) (ds0 : List LineDirective)
    (hds0 : ∀ e ∈ ds0, DirFacts s (lineRanges s) e) :
    ∀ (rest : List LineDirective) (d : LineDirective) (current : Span)
      (sls : List FileSlice),
      extendSlices (lineRanges s) current d rest = some sls →
      List.Pairwise (fun a b => a.line_index < b.line_index) (d :: rest) →
      (∀ e, e ∈ d :: rest → e ∈ ds0) →
      (sls ≠ [] ∧
        (sls.headD default).lines.start = d.line_index + 1 ∧
        (∀ sl ∈ sls, SliceShape (lineRanges s) sl ∧ d.line_index + 1 ≤ sl.lines.start) ∧
        (sls.getLastD default).lines.stop = (lineRanges s).length ∧
        List.Chain' (fun a b => b.lines.start = a.lines.stop + 1 ∧
          ∃ e ∈ ds0, e.line_index = a.lines.stop) sls ∧
        (∀ l, d.line_index < l → l < (lineRanges s).length →
          (∃ sl ∈ sls, sl.lines.start ≤ l ∧ l < sl.lines.stop) ∨
          (∃ e ∈ rest, e.line_index = l)) ∧
        (∀ e ∈ d :: rest, ∃ sl ∈ sls, sl.lines.start = e.line_index + 1 ∧
          sl.offset = e.offset ∧
          (∀ fr, e.filename = some fr → sl.name = fr) ∧
          (sl.lines.stop = (lineRanges s).length ∨
            ∃ e2 ∈ ds0, e2.line_index = sl.lines.stop))) := by
  intro rest
  induction rest with
  | nil =>
    intro d current sls h hpw hmem
    simp only [extendSlices] at h
    split at h
    · rename_i lastR r hlast hget
      simp only [Option.some.injEq] at h
      subst h
      obtain ⟨hlt, hgd⟩ := get?_some_facts (lineRanges s) (d.line_index + 1) r hget
      have hlastD : (lineRanges s).getLastD default = lastR := by
        rw [List.getLastD_eq_getLast?, hlast]
        rfl
      have hshape : SliceShape (lineRanges s)
          ⟨d.filename.getD current, ⟨r.start, lastR.stop⟩,
            ⟨d.line_index + 1, (lineRanges s).length⟩, d.offset⟩ := by
        refine ⟨?_, ?_, by exact Nat.le_of_lt hlt, Nat.le_refl _⟩
        · rw [lineStart_lo _ _ hlt, hgd]
        · rw [lineStart_hi _ _ (Nat.le_refl _), hlastD]
      refine ⟨by simp, rfl, ?_, rfl, List.chain'_singleton _, ?_, ?_⟩
      · intro sl hsl
        rcases List.mem_singleton.mp hsl with rfl
        exact ⟨hshape, Nat.le_refl _⟩
      · intro l hl1 hl2
        left
        refine ⟨_, List.mem_singleton_self _, ?_, ?_⟩
        · exact hl1
        · exact hl2
      · intro e he
        rcases List.mem_singleton.mp he with rfl
        refine ⟨_, List.mem_singleton_self _, rfl, rfl, ?_, Or.inl rfl⟩
        intro fr hfr
        simp [hfr]
    · exact Option.noConfusion h
  | cons e rest2 ih =>
    intro d current sls h hpw hmem
    simp only [extendSlices] at h
    split at h
    · rename_i r hget
      rcases Option.map_eq_some'.mp h with ⟨tail, htail, rfl⟩
      obtain ⟨hlt, hgd⟩ := get?_some_facts (lineRanges s) (d.line_index + 1) r hget
      rcases hpw with _ | ⟨hhead, htail'⟩
      have hde : d.line_index < e.line_index := hhead e (List.mem_cons_self _ _)
      have hmem2 : ∀ x, x ∈ e :: rest2 → x ∈ ds0 := by
        intro x hx
        exact hmem x (List.mem_cons_of_mem _ hx)
      obtain ⟨ihne, ihhead, ihshape, ihlast, ihchain, ihcover, ihdir⟩ :=
        ih e (d.filename.getD current) tail htail htail' hmem2
      have hdfe : DirFacts s (lineRanges s) e := hds0 e (hmem2 e (List.mem_cons_self _ _))
      obtain ⟨helt, hebyte, _, _⟩ := hdfe
      have hshapeH : SliceShape (lineRanges s)
          ⟨d.filename.getD current, ⟨r.start, e.byte_index⟩,
            ⟨d.line_index + 1, e.line_index⟩, d.offset⟩ := by
        refine ⟨?_, ?_, by exact hde, Nat.le_of_lt helt⟩
        · rw [lineStart_lo _ _ hlt, hgd]
        · rw [lineStart_lo _ _ helt, hebyte]
      refine ⟨by simp, rfl, ?_, ?_, ?_, ?_, ?_⟩
      · intro sl hsl
        rcases List.mem_cons.mp hsl with rfl | hsl2
        · exact ⟨hshapeH, Nat.le_refl _⟩
        · obtain ⟨hsh, hfloor⟩ := ihshape sl hsl2
          exact ⟨hsh, by omega⟩
      · rw [getLastD_cons_ne_nil tail _ ihne]
        exact ihlast
      · rw [List.chain'_cons']
        refine ⟨?_, ihchain⟩
        intro y hy
        rw [head?_eq_headD tail ihne] at hy
        simp only [Option.mem_def, Option.some.injEq] at hy
        subst hy
        refine ⟨?_, ⟨e, hmem2 e (List.mem_cons_self _ _), rfl⟩⟩
        rw [ihhead]
      · intro l hl1 hl2
        rcases Nat.lt_trichotomy l e.line_index with hc | hc | hc
        · left
          exact ⟨_, List.mem_cons_self _ _, by simp; omega, by simpa using hc⟩
        · right
          exact ⟨e, List.mem_cons_self _ _, hc.symm⟩
        · rcases ihcover l hc hl2 with ⟨sl, hsl, hcov⟩ | ⟨e2, he2, heq⟩
          · exact Or.inl ⟨sl, List.mem_cons_of_mem _ hsl, hcov⟩
          · exact Or.inr ⟨e2, List.mem_cons_of_mem _ he2, heq⟩
      · intro x hx
        rcases List.mem_cons.mp hx with rfl | hx2
        · refine ⟨_, List.mem_cons_self _ _, rfl, rfl, ?_, ?_⟩
          · intro fr hfr
            simp [hfr]
          · right
            exact ⟨e, hmem2 e (List.mem_cons_self _ _), rfl⟩
        · obtain ⟨sl, hsl, hrest⟩ := ihdir x hx2
          exact ⟨sl, List.mem_cons_of_mem _ hsl, hrest⟩
    · exact Option.noConfusion h

theorem buildSlices_spec (s : List Char) (ds : List LineDirective) (sls : List FileSlice)
    (h : buildSlices (lineRanges s) ds = some sls)
    (hpw : List.Pairwise (fun a b => a.line_index < b.line_index) ds)
    (hds : ∀ e ∈ ds, DirFacts s (lineRanges s) e) :
    sls ≠ [] ∧
    (∀ sl ∈ sls, SliceShape (lineRanges s) sl) ∧
    (sls.getLastD default).lines.stop = (lineRanges s).length ∧
    List.Chain' (fun a b => b.lines.start = a.lines.stop + 1 ∧
      ∃ e ∈ ds, e.line_index = a.lines.stop) sls ∧
    (∀ l, l < (lineRanges s).length →
      (∃ sl ∈ sls, sl.lines.start ≤ l ∧ l < sl.lines.stop) ∨
      (∃ e ∈ ds, e.line_index = l)) ∧
    (∀ e ∈ ds, ∃ sl ∈ sls, sl.lines.start = e.line_index + 1 ∧
      sl.offset = e.offset ∧ (∀ fr, e.filename = some fr → sl.name = fr) ∧
      (sl.lines.stop = (lineRanges s).length ∨
        ∃ e2 ∈ ds, e2.line_index = sl.lines.stop)) := by
  cases ds with
  | nil =>
    simp only [buildSlices] at h
    split at h
    · rename_i lastR hlast
      simp only [Option.some.injEq] at h
      subst h
      have hlastD : (lineRanges s).getLastD default = lastR := by
        rw [List.getLastD_eq_getLast?, hlast]
        rfl
      have hpos : 0 < (lineRanges s).length := List.length_pos.mpr (lineRanges_ne_nil s)
      have hshape : SliceShape (lineRanges s)
          ⟨⟨0, 0⟩, ⟨0, lastR.stop⟩, ⟨0, (lineRanges s).length⟩, 0⟩ := by
        refine ⟨?_, ?_, Nat.zero_le _, Nat.le_refl _⟩
        · rw [lineStart_zero s]
        · rw [lineStart_hi _ _ (Nat.le_refl _), hlastD]
      refine ⟨by simp, ?_, rfl, List.chain'_singleton _, ?_, by simp⟩
      · intro sl hsl
        rcases List.mem_singleton.mp hsl with rfl
        exact hshape
      · intro l hl
        left
        exact ⟨_, List.mem_singleton_self _, Nat.zero_le _, hl⟩
    · exact Option.noConfusion h
  | cons first rest =>
    simp only [buildSlices] at h
    rcases Option.map_eq_some'.mp h with ⟨tail, htail, heq⟩
    subst heq
    obtain ⟨ihne, ihhead, ihshape, ihlast, ihchain, ihcover, ihdir⟩ :=
      extendSlices_spec s (first :: rest) hds rest first ⟨0, 0⟩ tail htail hpw
        (fun e he => he)
    obtain ⟨hflt, hfbyte, _, _⟩ := hds first (List.mem_cons_self _ _)
    by_cases h0 : 0 < first.line_index
    · simp only [if_pos h0]
      have hshapeL : SliceShape (lineRanges s)
          ⟨⟨0, 0⟩, ⟨0, first.byte_index⟩, ⟨0, first.line_index⟩, 0⟩ := by
        refine ⟨?_, ?_, Nat.zero_le _, Nat.le_of_lt hflt⟩
        · rw [lineStart_zero s]
        · rw [lineStart_lo _ _ hflt, hfbyte]
      refine ⟨by simp, ?_, ?_, ?_, ?_, ?_⟩
      · intro sl hsl
        rcases List.mem_cons.mp hsl with rfl | hsl2
        · exact hshapeL
        · exact (ihshape sl hsl2).1
      · rw [getLastD_cons_ne_nil tail _ ihne]
        exact ihlast
      · rw [List.chain'_cons']
        refine ⟨?_, ihchain⟩
        intro y hy
        rw [head?_eq_headD tail ihne] at hy
        simp only [Option.mem_def, Option.some.injEq] at hy
        subst hy
        refine ⟨by rw [ihhead], ⟨first, List.mem_cons_self _ _, rfl⟩⟩
      · intro l hl
        rcases Nat.lt_trichotomy l first.line_index with hc | hc | hc
        · left
          exact ⟨_, List.mem_cons_self _ _, Nat.zero_le _, by simpa using hc⟩
        · right
          exact ⟨first, List.mem_cons_self _ _, hc.symm⟩
        · rcases ihcover l hc hl with ⟨sl, hsl, hcov⟩ | ⟨e2, he2, heq2⟩
          · exact Or.inl ⟨sl, List.mem_cons_of_mem _ hsl, hcov⟩
          · exact Or.inr ⟨e2, List.mem_cons_of_mem _ he2, heq2⟩
      · intro e he
        obtain ⟨sl, hsl, hrest⟩ := ihdir e he
        exact ⟨sl, List.mem_cons_of_mem _ hsl, hrest⟩
    · simp only [if_neg h0]
      have hf0 : first.line_index = 0 := by omega
      refine ⟨ihne, fun sl hsl => (ihshape sl hsl).1, ihlast, ihchain, ?_, ihdir⟩
      intro l hl
      rcases Nat.eq_zero_or_pos l with hc | hc
      · right
        exact ⟨first, List.mem_cons_self _ _, by omega⟩
      · rcases ihcover l (by omega) hl with ⟨sl, hsl, hcov⟩ | ⟨e2, he2, heq2⟩
        · exact Or.inl ⟨sl, hsl, hcov⟩
        · exact Or.inr ⟨e2, List.mem_cons_of_mem _ he2, heq2⟩

/-! ## Structure of a constructed codemap -/

theorem new_inv (s : List Char) (pf : PreprocessedFile)
    (h : PreprocessedFile.new s = some pf) :
    ∃ ds, directivesOf s = some ds ∧ buildSlices (lineRanges s) ds = some pf.ids ∧
      pf.lines = lineRanges s ∧ pf.contents = s := by
  simp only [PreprocessedFile.new] at h
  split at h
  · exact Option.noConfusion h
  · rename_i ds hds
    split at h
    · exact Option.noConfusion h
    · rename_i ids hids
      injection h with h2
      subst h2
      exact ⟨ds, hds, hids, rfl, rfl⟩

theorem pf_struct (s : List Char) (pf : PreprocessedFile) (ds : List LineDirective)
    (hds : directivesOf s = some ds) (hnew : PreprocessedFile.new s = some pf) :
    pf.lines = lineRanges s ∧ pf.contents = s ∧
    pf.ids ≠ [] ∧
    (∀ sl ∈ pf.ids, SliceShape (lineRanges s) sl) ∧
    (pf.ids.getLastD default).lines.stop = (lineRanges s).length ∧
    List.Chain' (fun a b => b.lines.start = a.lines.stop + 1 ∧
      ∃ e ∈ ds, e.line_index = a.lines.stop) pf.ids ∧
    (∀ l, l < (lineRanges s).length →
      (∃ sl ∈ pf.ids, sl.lines.start ≤ l ∧ l < sl.lines.stop) ∨
      (∃ e ∈ ds, e.line_index = l)) ∧
    (∀ e ∈ ds, ∃ sl ∈ pf.ids, sl.lines.start = e.line_index + 1 ∧
      sl.offset = e.offset ∧ (∀ fr, e.filename = some fr → sl.name = fr) ∧
      (sl.lines.stop = (lineRanges s).length ∨
        ∃ e2 ∈ ds, e2.line_index = sl.lines.stop)) := by
  obtain ⟨ds2, hds2, hb, hl, hc⟩ := new_inv s pf hnew
  rw [hds] at hds2
  injection hds2 with hds3
  subst hds3
  obtain ⟨hpw, hfacts⟩ := directivesOf_facts s ds hds
  obtain ⟨h1, h2, h3, h4, h5, h6⟩ := buildSlices_spec s ds pf.ids hb hpw hfacts
  exact ⟨hl, hc, h1, h2, h3, h4, h5, h6⟩

theorem ids_se (s : List Char) (ds : List LineDirective) (ids : List FileSlice)
    (hshape : ∀ sl ∈ ids, SliceShape (lineRanges s) sl) :
    ∀ i, i < ids.length →
      (ids.getD i default).bytes.start ≤ (ids.getD i default).bytes.stop := by
  intro i hi
  obtain ⟨ha, hb, hc, hd⟩ := hshape _ (getD_mem' ids i default hi)
  rw [ha, hb]
  exact lineStart_mono s _ _ hc

theorem ids_adj_sep (s : List Char) (ds : List LineDirective) (ids : List FileSlice)
    (hfacts : ∀ d ∈ ds, DirFacts s (lineRanges s) d)
    (hshape : ∀ sl ∈ ids, SliceShape (lineRanges s) sl)
    (hchain : List.Chain' (fun a b => b.lines.start = a.lines.stop + 1 ∧
      ∃ e ∈ ds, e.line_index = a.lines.stop) ids) :
    ∀ i, i + 1 < ids.length →
      (ids.getD i default).bytes.stop < (ids.getD (i + 1) default).bytes.start := by
  intro i hi
  have hadj := List.chain'_iff_get.mp hchain i (by omega)
  rw [← getD_eq_get' ids i default (by omega), ← getD_eq_get' ids (i + 1) default hi] at hadj
  obtain ⟨hstart, e, he, heq⟩ := hadj
  obtain ⟨ha, hb, hc, hd⟩ := hshape _ (getD_mem' ids i default (by omega))
  obtain ⟨ha2, hb2, hc2, hd2⟩ := hshape _ (getD_mem' ids (i + 1) default hi)
  obtain ⟨hlt, _, hgap, _⟩ := hfacts e he
  rw [hb, ha2, hstart, ← heq]
  have := lineStart_gap s e.line_index hlt (by omega)
  rw [heq] at this ⊢
  exact this

theorem ids_sep (s : List Char) (ds : List LineDirective) (ids : List FileSlice)
    (hfacts : ∀ d ∈ ds, DirFacts s (lineRanges s) d)
    (hshape : ∀ sl ∈ ids, SliceShape (lineRanges s) sl)
    (hchain : List.Chain' (fun a b => b.lines.start = a.lines.stop + 1 ∧
      ∃ e ∈ ds, e.line_index = a.lines.stop) ids) :
    ∀ i j, i < j → j < ids.length →
      (ids.getD i default).bytes.stop < (ids.getD j default).bytes.start := by
  intro i j hij hj
  exact sep_of_adj (fun sl => sl.bytes) ids
    (ids_adj_sep s ds ids hfacts hshape hchain)
    (ids_se s ds ids hshape) j i hij hj

theorem nlPositions_length (s : List Char) : ∀ i, (nlPositions s i).length ≤ s.length := by
  induction s with
  | nil => intro i; simp [nlPositions]
  | cons c cs ih =>
    intro i
    simp only [nlPositions, List.length_cons]
    by_cases hc : c = '\n'
    · rw [if_pos hc]
      simp only [List.length_cons]
      exact Nat.succ_le_succ (ih (i + 1))
    · rw [if_neg hc]
      exact Nat.le_succ_of_le (ih (i + 1))

theorem lineRanges_length_le (s : List Char) : (lineRanges s).length ≤ s.length + 1 := by
  rw [lineRanges_length]
  have h1 := nlPositions_length s 0
  rcases lineEndings_cases s with ⟨he, _⟩ | ⟨he, _⟩
  · rw [he]; omega
  · rw [he]; simp; omega

theorem isizeOfNat_small (n : Nat) (h : n < 9223372036854775808) : isizeOfNat n = (n : Int) := by
  have h64 : n % 18446744073709551616 = n := Nat.mod_eq_of_lt (by omega)
  simp only [isizeOfNat, h64, if_pos h]

theorem usizeOfInt_small (x : Int) (h0 : 0 ≤ x) (h1 : x < 18446744073709551616) :
    usizeOfInt x = x.toNat := by
  unfold usizeOfInt
  rw [Int.emod_eq_of_lt h0 h1]

theorem file_id_contains (s : List Char) (pf : PreprocessedFile) (ds : List LineDirective)
    (hds : directivesOf s = some ds) (hnew : PreprocessedFile.new s = some pf)
    (k byte : Nat) (hk : k < pf.ids.length)
    (h1 : (pf.ids.getD k default).bytes.start ≤ byte)
    (h2 : byte ≤ (pf.ids.getD k default).bytes.stop) :
    pf.file_id byte = some (pf.ids.getD k default) := by
  obtain ⟨hl, hc, hne, hshape, hlast, hchain, hcover, hdir⟩ := pf_struct s pf ds hds hnew
  obtain ⟨hpw, hfacts⟩ := directivesOf_facts s ds hds
  unfold PreprocessedFile.file_id
  rw [bs_span_eq_inl (fun sl => sl.bytes) byte pf.ids k (sliceCmp byte)
    (sliceCmp_eq_lineCmp byte)
    (ids_sep s ds pf.ids hfacts hshape hchain) (ids_se s ds pf.ids hshape) hk h1 h2]
  exact get?_eq_some_getD _ k hk

theorem file_id_beyond (s : List Char) (pf : PreprocessedFile) (ds : List LineDirective)
    (hds : directivesOf s = some ds) (hnew : PreprocessedFile.new s = some pf)
    (byte : Nat) (hbeyond : s.length ≤ byte) :
    pf.file_id byte = pf.ids.getLast? := by
  obtain ⟨hl, hc, hne, hshape, hlast, hchain, hcover, hdir⟩ := pf_struct s pf ds hds hnew
  obtain ⟨hpw, hfacts⟩ := directivesOf_facts s ds hds
  have hL : lineStart (lineRanges s) (lineRanges s).length ≤ s.length :=
    lineStart_le_length s _
  have hK : pf.ids.length - 1 < pf.ids.length := by
    have := List.length_pos.mpr hne
    omega
  have hlastD : pf.ids.getLastD default = pf.ids.getD (pf.ids.length - 1) default :=
    getLastD_eq_getD pf.ids hne
  have hlast?_eq : pf.ids.getLast? = some (pf.ids.getD (pf.ids.length - 1) default) := by
    rw [List.getLast?_eq_get?]
    exact get?_eq_some_getD _ _ hK
  have hstopmax : ∀ i, i < pf.ids.length →
      (pf.ids.getD i default).bytes.stop ≤ lineStart (lineRanges s) (lineRanges s).length := by
    intro i hi
    obtain ⟨ha, hb, hc2, hd⟩ := hshape _ (getD_mem' pf.ids i default hi)
    rw [hb]
    exact lineStart_mono s _ _ hd
  rcases Nat.lt_or_ge (lineStart (lineRanges s) (lineRanges s).length) byte with hgt | hle
  · unfold PreprocessedFile.file_id
    rw [bs_span_beyond (fun sl => sl.bytes) byte pf.ids (sliceCmp byte)
      (sliceCmp_eq_lineCmp byte) hne
      (ids_se s ds pf.ids hshape)
      (fun i hi => by
        show (pf.ids.getD i default).bytes.stop < byte
        have := hstopmax i hi
        omega)]
    show (if pf.ids.length < pf.ids.length then pf.ids.get? pf.ids.length
      else pf.ids.getLast?) = pf.ids.getLast?
    rw [if_neg (by omega)]
  · have hbyteL : byte = lineStart (lineRanges s) (lineRanges s).length := by omega
    obtain ⟨ha, hb, hc2, hd⟩ := hshape _ (getD_mem' pf.ids (pf.ids.length - 1) default hK)
    have hstopidx : (pf.ids.getD (pf.ids.length - 1) default).lines.stop =
        (lineRanges s).length := by
      rw [← hlastD]
      exact hlast
    have hstopeq : (pf.ids.getD (pf.ids.length - 1) default).bytes.stop = byte := by
      rw [hb, hstopidx, hbyteL]
    have hstarteq : (pf.ids.getD (pf.ids.length - 1) default).bytes.start ≤ byte := by
      rw [ha, hbyteL]
      exact lineStart_mono s _ _ (by omega)
    rw [file_id_contains s pf ds hds hnew (pf.ids.length - 1) byte hK hstarteq (by omega)]
    rw [hlast?_eq]

theorem line_index_inside (s : List Char) (pf : PreprocessedFile) (idf : FileSlice)
    (byte flat : Nat)
    (hl : pf.lines = lineRanges s)
    (hflat : flat < (lineRanges s).length)
    (hb1 : ((lineRanges s).getD flat default).start ≤ byte)
    (hb2 : byte ≤ ((lineRanges s).getD flat default).stop)
    (hrange : idf.bytes.start ≤ byte) (hlt : byte < idf.bytes.stop) :
    pf.line_index idf byte =
      some (Except.ok (usizeOfInt (isizeOfNat flat - idf.offset))) := by
  unfold PreprocessedFile.line_index
  rw [if_neg (by omega), if_neg (by omega), hl]
  rw [bs_span_eq_inl (fun r => r) byte (lineRanges s) flat (lineCmp byte) rfl
    (fun i j hij hj => lr_sep s i j hij hj)
    (fun i hi => lr_start_le_stop s i hi) hflat hb1 hb2]

theorem line_index_past_end (pf : PreprocessedFile) (idf : FileSlice) (byte : Nat)
    (h : idf.bytes.stop ≤ byte) :
    pf.line_index idf byte =
      some (Except.ok (usizeOfInt (isizeOfNat idf.lines.stop - 1 - idf.offset))) := by
  unfold PreprocessedFile.line_index
  rw [if_pos h]

theorem ids_ne_nil_of_new (s : List Char) (pf : PreprocessedFile)
    (hnew : PreprocessedFile.new s = some pf) : pf.ids ≠ [] := by
  obtain ⟨ds, hds, hb, hl, hc⟩ := new_inv s pf hnew
  obtain ⟨hpw, hfacts⟩ := directivesOf_facts s ds hds
  exact (buildSlices_spec s ds pf.ids hb hpw hfacts).1

theorem file_id_total (pf : PreprocessedFile) (hne : pf.ids ≠ []) (byte : Nat) :
    (pf.file_id byte).isSome := by
  unfold PreprocessedFile.file_id
  cases hbs : binarySearchBy (sliceCmp byte) pf.ids with
  | inl i =>
    show (pf.ids.get? i).isSome = true
    rw [get?_eq_some_getD _ i (binarySearchBy_inl_lt _ _ i hbs)]
    rfl
  | inr i =>
    show (if i < pf.ids.length then pf.ids.get? i else pf.ids.getLast?).isSome = true
    by_cases hi : i < pf.ids.length
    · rw [if_pos hi, get?_eq_some_getD _ i hi]
      rfl
    · rw [if_neg hi]
      rw [List.getLast?_isSome]
      exact hne

/-- Claim C9: for every successfully constructed codemap the segment list is
non-empty, so file_id is total: every byte index resolves through one of the
three match arms to a segment and the function never panics. -/
theorem c9_ids_nonempty_file_id_total (s : List Char) (pf : PreprocessedFile)
    (hnew : PreprocessedFile.new s = some pf) :
    pf.ids ≠ [] ∧ ∀ byte, (pf.file_id byte).isSome :=
  ⟨ids_ne_nil_of_new s pf hnew,
    fun byte => file_id_total pf (ids_ne_nil_of_new s pf hnew) byte⟩

theorem c9_ids_nonempty_file_id_total_witness :
    PreprocessedFile.new ("a\n".toList) =
      some (PreprocessedFile.mk [FileSlice.mk (Span.mk 0 0) (Span.mk 0 1) (Span.mk 0 1) 0]
        [Span.mk 0 1] ("a\n".toList)) ∧
    ((PreprocessedFile.mk [FileSlice.mk (Span.mk 0 0) (Span.mk 0 1) (Span.mk 0 1) 0]
        [Span.mk 0 1] ("a\n".toList)).ids ≠ [] ∧
      ∀ byte, ((PreprocessedFile.mk [FileSlice.mk (Span.mk 0 0) (Span.mk 0 1) (Span.mk 0 1) 0]
        [Span.mk 0 1] ("a\n".toList)).file_id byte).isSome) :=
  ⟨by rfl, c9_ids_nonempty_file_id_total ("a\n".toList) _ (by rfl)⟩

/-- Claim C5: file_id never fails on a constructed codemap: it always returns
a segment, and any byte offset at or beyond the buffer length resolves to the
last segment (out-of-range offsets are clamped, not errors). -/
theorem c5_file_id_total_clamps (s : List Char) (pf : PreprocessedFile)
    (hnew : PreprocessedFile.new s = some pf) :
    (∀ byte, (pf.file_id byte).isSome) ∧
    (∀ byte, s.length ≤ byte → pf.file_id byte = pf.ids.getLast?) := by
  obtain ⟨ds, hds, hb, hl, hc⟩ := new_inv s pf hnew
  refine ⟨fun byte => file_id_total pf (ids_ne_nil_of_new s pf hnew) byte, ?_⟩
  intro byte hbyte
  exact file_id_beyond s pf ds hds hnew byte hbyte

theorem c5_file_id_total_clamps_witness :
    PreprocessedFile.new ("a\n".toList) =
      some (PreprocessedFile.mk [FileSlice.mk (Span.mk 0 0) (Span.mk 0 1) (Span.mk 0 1) 0]
        [Span.mk 0 1] ("a\n".toList)) ∧
    ((∀ byte, ((PreprocessedFile.mk [FileSlice.mk (Span.mk 0 0) (Span.mk 0 1) (Span.mk 0 1) 0]
        [Span.mk 0 1] ("a\n".toList)).file_id byte).isSome) ∧
      (∀ byte, ("a\n".toList).length ≤ byte →
        (PreprocessedFile.mk [FileSlice.mk (Span.mk 0 0) (Span.mk 0 1) (Span.mk 0 1) 0]
          [Span.mk 0 1] ("a\n".toList)).file_id byte =
        (PreprocessedFile.mk [FileSlice.mk (Span.mk 0 0) (Span.mk 0 1) (Span.mk 0 1) 0]
          [Span.mk 0 1] ("a\n".toList)).ids.getLast?)) :=
  ⟨by rfl, c5_file_id_total_clamps ("a\n".toList) _ (by rfl)⟩

/-- Claim C1 is false as stated: in the buffer below the two adjacent
segments are not contiguous (the directive line between them belongs to
neither), byte 5 (on the directive line) and byte 15 (the final newline)
are below the buffer length but in no segment's byte range, and line 1
(the directive line) is in no segment's line range. -/
theorem c1_counterexample :
    ((PreprocessedFile.new ("a\n#line 1 \"f\"\nb\n".toList)).map (fun pf =>
      (pf.ids.length,
        (pf.ids.getD 0 default).bytes.stop, (pf.ids.getD 1 default).bytes.start,
        (pf.ids.getD 0 default).lines.stop, (pf.ids.getD 1 default).lines.start,
        pf.ids.all (fun sl => !(decide (sl.bytes.start ≤ 5) && decide (5 < sl.bytes.stop))),
        pf.ids.all (fun sl => !(decide (sl.bytes.start ≤ 15) && decide (15 < sl.bytes.stop))),
        pf.ids.all (fun sl => !(decide (sl.lines.start ≤ 1) && decide (1 < sl.lines.stop))))) =
      some (2, 2, 14, 1, 2, true, true, true)) ∧
    5 < ("a\n#line 1 \"f\"\nb\n".toList).length ∧
    15 < ("a\n#line 1 \"f\"\nb\n".toList).length ∧
    (2 : Nat) ≠ 14 ∧ (1 : Nat) ≠ 2 :=
  ⟨by rfl, by decide, by decide, by decide, by decide⟩

/-- Claim C2 is false as stated: in the buffer below the directive
`#line 5 "F"` sits at flattened line 0, flattened line 1 spans bytes 12-19,
and byte 12 lies on it; yet line_index through file_id returns 3, not
N - 1 = 4 (line 1 is itself a directive line and file_id resolves byte 12
to the empty segment between the two directives). -/
theorem c2_counterexample :
    lineContent ("#line 5 \"F\"\n#line 9\nx\n".toList) (Span.mk 0 11) =
      ("#line 5 \"F\"".toList) ∧
    (lineRanges ("#line 5 \"F\"\n#line 9\nx\n".toList)).getD 0 default = Span.mk 0 11 ∧
    (lineRanges ("#line 5 \"F\"\n#line 9\nx\n".toList)).getD 1 default = Span.mk 12 19 ∧
    ((PreprocessedFile.new ("#line 5 \"F\"\n#line 9\nx\n".toList)).map (fun pf =>
      (pf.file_id 12).map (fun sl => (pf.name sl, pf.line_index sl 12)))) =
      some (some (some ("F".toList), some (Except.ok 3))) ∧
    (3 : Nat) ≠ 5 - 1 :=
  ⟨by rfl, by rfl, by rfl, by rfl, by decide⟩

/-- Claim C4 is false as stated: in the buffer below the second segment has
offset -4, and for original line index 4 the flattened index is 0, so
line_range succeeds (with the byte range of flattened line 0, which lies
before the segment); line_index at that range's start then returns a
file-missing error instead of 4. -/
theorem c4_counterexample :
    ((PreprocessedFile.new ("a\n#line 7 \"f\"\nb\n".toList)).map (fun pf =>
      (decide (FileSlice.mk (Span.mk 11 12) (Span.mk 14 15) (Span.mk 2 3) (-4) ∈ pf.ids),
        pf.line_range (FileSlice.mk (Span.mk 11 12) (Span.mk 14 15) (Span.mk 2 3) (-4)) 4,
        pf.line_index (FileSlice.mk (Span.mk 11 12) (Span.mk 14 15) (Span.mk 2 3) (-4)) 0))) =
      some (true, Except.ok (Span.mk 0 1),
        some (Except.error FilesError.fileMissing)) ∧
    (some (Except.error FilesError.fileMissing) :
        Option (Except FilesError Nat)) ≠ some (Except.ok 4) := by
  refine ⟨by rfl, ?_⟩
  intro h
  simp only [Option.some.injEq] at h
  exact Except.noConfusion h

/-- Claim C6 is false on one point: for a buffer with no directive the single
segment's byte range stops at the final newline (byte 1 of a 2-byte buffer),
so it does not span the whole buffer. -/
theorem c6_counterexample :
    ((PreprocessedFile.new ("a\n".toList)).map (fun pf => pf.ids)) =
      some [FileSlice.mk (Span.mk 0 0) (Span.mk 0 1) (Span.mk 0 1) 0] ∧
    ("a\n".toList).length = 2 ∧
    Span.mk 0 1 ≠ Span.mk 0 2 :=
  ⟨by rfl, by rfl, by decide⟩

/-- Claim C1 amended: the segment list is totally ordered by byte range and
mutually non-overlapping, but it does not cover the whole buffer: each
directive's own line separates two adjacent segments and belongs to neither
(for adjacent segments a, b one has b.lines.start = a.lines.stop + 1 with a
directive at line a.lines.stop, and the byte endpoints of every segment are
the line starts of its line endpoints), and every byte offset below the
buffer length lies in some segment's byte range, or on a directive line's
extended span, or is the final newline position. -/
theorem c1_segment_structure (s : List Char) (pf : PreprocessedFile)
    (ds : List LineDirective)
    (hds : directivesOf s = some ds) (hnew : PreprocessedFile.new s = some pf) :
    (∀ i j, i < j → j < pf.ids.length →
      (pf.ids.getD i default).bytes.stop < (pf.ids.getD j default).bytes.start) ∧
    (∀ sl ∈ pf.ids, sl.bytes.start = lineStart (lineRanges s) sl.lines.start ∧
      sl.bytes.stop = lineStart (lineRanges s) sl.lines.stop ∧
      sl.lines.start ≤ sl.lines.stop) ∧
    List.Chain' (fun a b => b.lines.start = a.lines.stop + 1 ∧
      ∃ e ∈ ds, e.line_index = a.lines.stop) pf.ids ∧
    (∀ l, l < (lineRanges s).length →
      (∃ sl ∈ pf.ids, sl.lines.start ≤ l ∧ l < sl.lines.stop) ∨
      ∃ e ∈ ds, e.line_index = l) ∧
    (∀ b, b < s.length →
      (∃ sl ∈ pf.ids, sl.bytes.start ≤ b ∧ b < sl.bytes.stop) ∨
      (∃ e ∈ ds, ((lineRanges s).getD e.line_index default).start ≤ b ∧
        b < lineStart (lineRanges s) (e.line_index + 1)) ∨
      b = lineStart (lineRanges s) (lineRanges s).length) := by
  obtain ⟨hl, hc, hne, hshape, hlast, hchain, hcover, hdir⟩ := pf_struct s pf ds hds hnew
  obtain ⟨hpw, hfacts⟩ := directivesOf_facts s ds hds
  refine ⟨ids_sep s ds pf.ids hfacts hshape hchain, ?_, hchain, hcover, ?_⟩
  · intro sl hsl
    obtain ⟨h1, h2, h3, h4⟩ := hshape sl hsl
    exact ⟨h1, h2, h3⟩
  · intro b hb
    rcases Nat.lt_or_ge b (lineStart (lineRanges s) (lineRanges s).length) with hlt | hge
    · have h0 : lineStart (lineRanges s) 0 ≤ b := by
        rw [lineStart_zero s]
        exact Nat.zero_le b
      obtain ⟨l, hln, hb1, hb2⟩ := nat_ivt (lineStart (lineRanges s)) (lineRanges s).length b h0 hlt
      rcases hcover l hln with ⟨sl, hsl, hx, hy⟩ | ⟨e, he, heq⟩
      · left
        obtain ⟨s1, s2, s3, s4⟩ := hshape sl hsl
        refine ⟨sl, hsl, ?_, ?_⟩
        · rw [s1]
          exact Nat.le_trans (lineStart_mono s _ _ hx) hb1
        · rw [s2]
          exact Nat.lt_of_lt_of_le hb2 (lineStart_mono s _ _ hy)
      · right; left
        refine ⟨e, he, ?_, ?_⟩
        · rw [heq, ← lineStart_lo _ _ hln]
          exact hb1
        · rw [heq]
          exact hb2
    · right; right
      have hle := lineStart_le_length s (lineRanges s).length
      have hge2 := lastStop_ge s
      rw [lineStart_hi _ _ (Nat.le_refl _)] at hge ⊢
      omega

theorem c1_segment_structure_witness :
    (directivesOf exBuf = some exDs ∧ PreprocessedFile.new exBuf = some exPf) ∧
    ((∀ i j, i < j → j < exPf.ids.length →
      (exPf.ids.getD i default).bytes.stop < (exPf.ids.getD j default).bytes.start) ∧
    (∀ sl ∈ exPf.ids, sl.bytes.start = lineStart (lineRanges exBuf) sl.lines.start ∧
      sl.bytes.stop = lineStart (lineRanges exBuf) sl.lines.stop ∧
      sl.lines.start ≤ sl.lines.stop) ∧
    List.Chain' (fun a b => b.lines.start = a.lines.stop + 1 ∧
      ∃ e ∈ exDs, e.line_index = a.lines.stop) exPf.ids ∧
    (∀ l, l < (lineRanges exBuf).length →
      (∃ sl ∈ exPf.ids, sl.lines.start ≤ l ∧ l < sl.lines.stop) ∨
      ∃ e ∈ exDs, e.line_index = l) ∧
    (∀ b, b < exBuf.length →
      (∃ sl ∈ exPf.ids, sl.bytes.start ≤ b ∧ b < sl.bytes.stop) ∨
      (∃ e ∈ exDs, ((lineRanges exBuf).getD e.line_index default).start ≤ b ∧
        b < lineStart (lineRanges exBuf) (e.line_index + 1)) ∨
      b = lineStart (lineRanges exBuf) (lineRanges exBuf).length)) :=
  ⟨⟨by rfl, by rfl⟩, c1_segment_structure exBuf exPf exDs (by rfl) (by rfl)⟩

theorem sorted_ge_index (xs : List Nat) (hpw : List.Pairwise (fun a b => a < b) xs) :
    ∀ i, i < xs.length → i ≤ xs.getD i 0 := by
  intro i
  induction i with
  | zero => intro _; exact Nat.zero_le _
  | succ i ih =>
    intro hi
    have h1 : i < xs.length := Nat.lt_of_succ_lt hi
    have h2 : xs.getD i 0 < xs.getD (i + 1) 0 := by
      have := List.pairwise_iff_get.mp hpw ⟨i, h1⟩ ⟨i + 1, hi⟩ (Nat.lt_succ_self i)
      rwa [getD_eq_get' xs i 0 h1, getD_eq_get' xs (i + 1) 0 hi]
    have := ih h1
    omega

theorem nlPositions_pairwise (s : List Char) (i : Nat) :
    List.Pairwise (fun a b => a < b) (nlPositions s i) :=
  List.chain'_iff_pairwise.mp (nlPositions_chain s i)

theorem lineRanges_length_bound (s : List Char) (h : s ≠ []) :
    (lineRanges s).length ≤ s.length := by
  rw [lineRanges_length]
  have hnp := nlPositions_length s 0
  rcases lineEndings_cases s with ⟨he, _⟩ | ⟨he, hguard⟩
  · rw [he]; exact hnp
  · rw [he]
    simp only [List.length_append, List.length_singleton]
    have hslen : 0 < s.length := List.length_pos.mpr h
    by_contra hge
    have heq : (nlPositions s 0).length = s.length := by omega
    have hnpne : nlPositions s 0 ≠ [] := by
      intro hnil
      rw [hnil] at heq
      simp at heq
      omega
    have hpos : 0 < (nlPositions s 0).length := List.length_pos.mpr hnpne
    have hlastval : (nlPositions s 0).getLast? =
        some ((nlPositions s 0).getD ((nlPositions s 0).length - 1) 0) := by
      rw [List.getLast?_eq_get?]
      rw [List.get?_eq_get (by omega), getD_eq_get' _ _ 0 (by omega)]
    have hge2 := sorted_ge_index (nlPositions s 0) (nlPositions_pairwise s 0)
      ((nlPositions s 0).length - 1) (by omega)
    have hlt2 := nlPositions_lt s 0 _
      (getD_mem' (nlPositions s 0) ((nlPositions s 0).length - 1) 0 (by omega))
    rcases hguard with hnone | ⟨l, hsome, hne2⟩
    · rw [hlastval] at hnone
      exact Option.noConfusion hnone
    · rw [hlastval] at hsome
      injection hsome with hsome2
      rw [← hsome2] at hne2
      omega

theorem lineRanges_length_lt (s : List Char) (h : s.length < 9223372036854775808) :
    (lineRanges s).length < 9223372036854775808 := by
  by_cases hs : s = []
  · subst hs
    have : (lineRanges ([] : List Char)).length = 1 := by rfl
    omega
  · have := lineRanges_length_bound s hs
    omega

theorem count_le_eq_plain (s : List Char) (b : Nat) (hb : b < s.length) :
    ((lineEndings s).filter (fun p => decide (p < b))).length = plainLineIndex s b := by
  have hmain : ((nlPositions s 0).filter (fun p => decide (p < b))).length =
      plainLineIndex s b := by
    have := nlPositions_count s 0 b
    simpa [plainLineIndex] using this
  rcases lineEndings_cases s with ⟨he, _⟩ | ⟨he, _⟩
  · rw [he]; exact hmain
  · rw [he, List.filter_append]
    simp only [List.length_append]
    have : ([s.length].filter (fun p => decide (p < b))).length = 0 := by
      simp
      omega
    omega

theorem line_of_byte_plain (s : List Char) (l b : Nat)
    (hl : l < (lineRanges s).length)
    (h1 : ((lineRanges s).getD l default).start ≤ b)
    (h2 : b ≤ ((lineRanges s).getD l default).stop)
    (hb : b < s.length) :
    plainLineIndex s b = l := by
  have hlen : l < (lineEndings s).length := by rw [← lineRanges_length s]; exact hl
  rw [← count_le_eq_plain s b hb]
  apply count_lt_of_sorted_split b (lineEndings s) l (Nat.le_of_lt hlen)
  · intro j hj
    have hsep := lr_sep s j l hj hl
    rw [lr_stop s j (by omega)] at hsep
    omega
  · intro j hj1 hj2
    have hstop : ((lineRanges s).getD l default).stop = (lineEndings s).getD l 0 :=
      lr_stop s l hl
    rcases Nat.eq_or_lt_of_le hj1 with h | h
    · subst h
      omega
    · have := le_getD_lt s l j h hj2
      omega

/-- Claim C6 amended: for a buffer with no marker line, construction emits
exactly one segment with empty name range, offset 0, byte range from 0 to the
end of the last line (the final newline position when the buffer is
terminated, not the whole buffer), and line range covering every line;
file_id returns it for every byte offset below the buffer length, and
line_index on it equals the plain newline-count line index. -/
theorem c6_no_directive_identity (s : List Char) (pf : PreprocessedFile)
    (hlen : s.length < 9223372036854775808)
    (hds : directivesOf s = some [])
    (hnew : PreprocessedFile.new s = some pf) :
    ∃ sl, pf.ids = [sl] ∧ sl.name = Span.mk 0 0 ∧ sl.offset = 0 ∧
      sl.bytes = Span.mk 0 ((lineRanges s).getLastD default).stop ∧
      sl.lines = Span.mk 0 (lineRanges s).length ∧
      ∀ b, b < s.length → pf.file_id b = some sl ∧
        pf.line_index sl b = some (Except.ok (plainLineIndex s b)) := by
  obtain ⟨ds2, hds2, hb, hl, hc⟩ := new_inv s pf hnew
  rw [hds] at hds2
  injection hds2 with h3
  subst h3
  simp only [buildSlices] at hb
  split at hb
  case h_2 => exact Option.noConfusion hb
  case h_1 lastR hlast =>
    injection hb with hids
    have hlastD : (lineRanges s).getLastD default = lastR := by
      rw [List.getLastD_eq_getLast?, hlast]
      rfl
    have hlrlen : (lineRanges s).length < 9223372036854775808 :=
      lineRanges_length_lt s hlen
    have hlrpos : 0 < (lineRanges s).length := List.length_pos.mpr (lineRanges_ne_nil s)
    have hstople : s.length ≤ lastR.stop + 1 := by
      have := lastStop_ge s
      rw [hlastD] at this
      exact this
    refine ⟨⟨⟨0, 0⟩, ⟨0, lastR.stop⟩, ⟨0, (lineRanges s).length⟩, 0⟩, hids.symm,
      rfl, rfl, by rw [hlastD], rfl, ?_⟩
    intro b hbl
    have hgd0 : pf.ids.getD 0 default =
        ⟨⟨0, 0⟩, ⟨0, lastR.stop⟩, ⟨0, (lineRanges s).length⟩, 0⟩ := by
      rw [← hids]
      rfl
    have hstopL : lastR.stop = lineStart (lineRanges s) (lineRanges s).length := by
      rw [lineStart_hi _ _ (Nat.le_refl _), hlastD]
    constructor
    · rw [file_id_contains s pf [] hds hnew 0 b (by rw [← hids]; simp)
        (by rw [hgd0]; exact Nat.zero_le b) (by rw [hgd0]; simp; omega)]
      rw [hgd0]
    · by_cases hcase : lastR.stop ≤ b
      · have hbeq : b = lastR.stop := by omega
        rw [line_index_past_end pf _ b (by simpa using hcase)]
        have hplain : plainLineIndex s b = (lineRanges s).length - 1 := by
          rw [← count_le_eq_plain s b hbl]
          apply count_lt_of_sorted_split b (lineEndings s) ((lineRanges s).length - 1)
            (by rw [← lineRanges_length s]; omega)
          · intro j hj
            have hsep := le_getD_lt s j ((lineRanges s).length - 1) hj
              (by rw [← lineRanges_length s]; omega)
            have hgl : (lineEndings s).getD ((lineRanges s).length - 1) 0 = lastR.stop := by
              rw [← lr_stop s _ (by omega), ← getLastD_eq_getD _ (lineRanges_ne_nil s), hlastD]
            omega
          · intro j hj1 hj2
            have hj3 : j = (lineRanges s).length - 1 := by
              rw [← lineRanges_length s] at hj2
              omega
            subst hj3
            have hgl : (lineEndings s).getD ((lineRanges s).length - 1) 0 = lastR.stop := by
              rw [← lr_stop s _ (by omega), ← getLastD_eq_getD _ (lineRanges_ne_nil s), hlastD]
            omega
        rw [hplain]
        dsimp only
        have hval : usizeOfInt (isizeOfNat (lineRanges s).length - 1 - 0) =
            (lineRanges s).length - 1 := by
          rw [isizeOfNat_small _ (by omega)]
          rw [usizeOfInt_small _ (by omega) (by omega)]
          omega
        rw [hval]
      · have hbltL : b < lineStart (lineRanges s) (lineRanges s).length := by omega
        have h0 : lineStart (lineRanges s) 0 ≤ b := by
          rw [lineStart_zero s]
          exact Nat.zero_le b
        obtain ⟨l, hln, hb1, hb2⟩ :=
          nat_ivt (lineStart (lineRanges s)) (lineRanges s).length b h0 hbltL
        have hstart : ((lineRanges s).getD l default).start ≤ b := by
          rw [← lineStart_lo _ _ hln]
          exact hb1
        have hstop : b ≤ ((lineRanges s).getD l default).stop := by
          by_cases hl1 : l + 1 < (lineRanges s).length
          · have := lr_start_succ s l hl1
            rw [lineStart_lo _ _ hl1, this] at hb2
            omega
          · have hleq : l = (lineRanges s).length - 1 := by omega
            rw [lineStart_hi _ _ (by omega), getLastD_eq_getD _ (lineRanges_ne_nil s)] at hb2
            rw [hleq]
            omega
        rw [line_index_inside s pf _ b l hl hln hstart hstop
          (by simp) (by simpa using hcase)]
        have hplain := line_of_byte_plain s l b hln hstart hstop hbl
        rw [hplain]
        dsimp only
        have hval : usizeOfInt (isizeOfNat l - 0) = l := by
          rw [isizeOfNat_small _ (by omega)]
          rw [usizeOfInt_small _ (by omega) (by omega)]
          omega
        rw [hval]

theorem c6_no_directive_identity_witness :
    (("a\nb".toList).length < 9223372036854775808 ∧
      directivesOf ("a\nb".toList) = some [] ∧
      PreprocessedFile.new ("a\nb".toList) =
        some (PreprocessedFile.mk [FileSlice.mk (Span.mk 0 0) (Span.mk 0 3) (Span.mk 0 2) 0]
          [Span.mk 0 1, Span.mk 2 3] ("a\nb".toList))) ∧
    (∃ sl, (PreprocessedFile.mk [FileSlice.mk (Span.mk 0 0) (Span.mk 0 3) (Span.mk 0 2) 0]
          [Span.mk 0 1, Span.mk 2 3] ("a\nb".toList)).ids = [sl] ∧
      sl.name = Span.mk 0 0 ∧ sl.offset = 0 ∧
      sl.bytes = Span.mk 0 ((lineRanges ("a\nb".toList)).getLastD default).stop ∧
      sl.lines = Span.mk 0 (lineRanges ("a\nb".toList)).length ∧
      ∀ b, b < ("a\nb".toList).length →
        (PreprocessedFile.mk [FileSlice.mk (Span.mk 0 0) (Span.mk 0 3) (Span.mk 0 2) 0]
          [Span.mk 0 1, Span.mk 2 3] ("a\nb".toList)).file_id b = some sl ∧
        (PreprocessedFile.mk [FileSlice.mk (Span.mk 0 0) (Span.mk 0 3) (Span.mk 0 2) 0]
          [Span.mk 0 1, Span.mk 2 3] ("a\nb".toList)).line_index sl b =
          some (Except.ok (plainLineIndex ("a\nb".toList) b))) :=
  ⟨⟨by decide, by rfl, by rfl⟩,
    c6_no_directive_identity ("a\nb".toList) _ (by decide) (by rfl) (by rfl)⟩

/-- Claim C4 amended: the round trip holds for every original line index
that lands inside the segment's own line range: if i + offset lies within
segment.lines (and the buffer and index are within the machine range), then
line_range succeeds and line_index at the returned range's start gives back
i.  (Outside that restriction the round trip can fail even though
line_range succeeds: the counterexample shows a flattened line falling
before the segment, where line_index reports a file-missing error
instead of i.) -/
theorem c4_round_trip (s : List Char) (pf : PreprocessedFile) (sl : FileSlice) (i : Nat)
    (hlen : s.length < 9223372036854775808)
    (hi : i < 9223372036854775808)
    (hnew : PreprocessedFile.new s = some pf)
    (hsl : sl ∈ pf.ids)
    (hlo : (sl.lines.start : Int) ≤ (i : Int) + sl.offset)
    (hhi : (i : Int) + sl.offset < (sl.lines.stop : Int)) :
    ∃ r, pf.line_range sl i = Except.ok r ∧
      pf.line_index sl r.start = some (Except.ok i) := by
  obtain ⟨ds, hds, hb, hl, hc⟩ := new_inv s pf hnew
  obtain ⟨_, _, hne, hshape, hlast, hchain, hcover, hdir⟩ := pf_struct s pf ds hds hnew
  obtain ⟨s1, s2, s3, s4⟩ := hshape sl hsl
  have hlrlen : (lineRanges s).length < 9223372036854775808 := lineRanges_length_lt s hlen
  have hofs0 : (0 : Int) ≤ (i : Int) + sl.offset := by
    have : (0 : Int) ≤ (sl.lines.start : Int) := by omega
    omega
  have hflatdef : ((i : Int) + sl.offset).toNat < sl.lines.stop := by omega
  have hflatlen : ((i : Int) + sl.offset).toNat < (lineRanges s).length := by omega
  have hidx : usizeOfInt (isizeOfNat i + sl.offset) = ((i : Int) + sl.offset).toNat := by
    rw [isizeOfNat_small i hi]
    rw [usizeOfInt_small _ hofs0 (by omega)]
  have hrge : pf.line_range sl i =
      Except.ok ((lineRanges s).getD ((i : Int) + sl.offset).toNat default) := by
    unfold PreprocessedFile.line_range
    rw [hidx, hl, get?_eq_some_getD _ _ hflatlen]
  set flat := ((i : Int) + sl.offset).toNat with hflat
  set r := (lineRanges s).getD flat default with hr
  have hbyte : r.start = lineStart (lineRanges s) flat := by
    rw [lineStart_lo _ _ hflatlen]
  have hstartle : sl.bytes.start ≤ r.start := by
    rw [s1, hbyte]
    exact lineStart_mono s _ _ (by omega)
  refine ⟨r, hrge, ?_⟩
  by_cases hcase : r.start < sl.bytes.stop
  · rw [line_index_inside s pf sl r.start flat hl hflatlen (by rw [hr]) 
      (by rw [hr]; exact lr_start_le_stop s flat hflatlen) hstartle hcase]
    have hval : usizeOfInt (isizeOfNat flat - sl.offset) = i := by
      rw [isizeOfNat_small flat (by omega)]
      have h1 : (flat : Int) - sl.offset = (i : Int) := by omega
      rw [h1, usizeOfInt_small _ (by omega) (by omega)]
      omega
    rw [hval]
  · have hstopbyte : sl.bytes.stop ≤ r.start := by omega
    have hflaty : flat + 1 = sl.lines.stop := by
      by_contra hne2
      have hlt2 : flat + 1 < sl.lines.stop := by omega
      have h1 : lineStart (lineRanges s) flat < lineStart (lineRanges s) (flat + 1) :=
        lineStart_succ_gt s flat (by omega)
      have h2 : lineStart (lineRanges s) (flat + 1) ≤ lineStart (lineRanges s) sl.lines.stop :=
        lineStart_mono s _ _ (by omega)
      rw [s2] at hstopbyte
      rw [hbyte] at hstopbyte
      omega
    rw [line_index_past_end pf sl r.start hstopbyte]
    have hval : usizeOfInt (isizeOfNat sl.lines.stop - 1 - sl.offset) = i := by
      rw [isizeOfNat_small sl.lines.stop (by omega)]
      have h1 : (sl.lines.stop : Int) - 1 - sl.offset = (i : Int) := by omega
      rw [h1, usizeOfInt_small _ (by omega) (by omega)]
      omega
    rw [hval]

theorem c4_round_trip_witness :
    (("a\nb\n".toList).length < 9223372036854775808 ∧
      (1 : Nat) < 9223372036854775808 ∧
      PreprocessedFile.new ("a\nb\n".toList) =
        some (PreprocessedFile.mk [FileSlice.mk (Span.mk 0 0) (Span.mk 0 3) (Span.mk 0 2) 0]
          [Span.mk 0 1, Span.mk 2 3] ("a\nb\n".toList)) ∧
      FileSlice.mk (Span.mk 0 0) (Span.mk 0 3) (Span.mk 0 2) 0 ∈
        (PreprocessedFile.mk [FileSlice.mk (Span.mk 0 0) (Span.mk 0 3) (Span.mk 0 2) 0]
          [Span.mk 0 1, Span.mk 2 3] ("a\nb\n".toList)).ids) ∧
    (∃ r, (PreprocessedFile.mk [FileSlice.mk (Span.mk 0 0) (Span.mk 0 3) (Span.mk 0 2) 0]
        [Span.mk 0 1, Span.mk 2 3] ("a\nb\n".toList)).line_range
        (FileSlice.mk (Span.mk 0 0) (Span.mk 0 3) (Span.mk 0 2) 0) 1 = Except.ok r ∧
      (PreprocessedFile.mk [FileSlice.mk (Span.mk 0 0) (Span.mk 0 3) (Span.mk 0 2) 0]
        [Span.mk 0 1, Span.mk 2 3] ("a\nb\n".toList)).line_index
        (FileSlice.mk (Span.mk 0 0) (Span.mk 0 3) (Span.mk 0 2) 0) r.start =
        some (Except.ok 1)) :=
  ⟨⟨by decide, by decide, by rfl, by decide⟩,
    c4_round_trip ("a\nb\n".toList) _ (FileSlice.mk (Span.mk 0 0) (Span.mk 0 3) (Span.mk 0 2) 0)
      1 (by decide) (by decide) (by rfl) (by decide) (by decide) (by decide)⟩

/-! ## Directive line parsing, exactly -/

theorem findSpace_marker (dstr : List Char) (rest : List Char) (h : ' ' ∉ dstr) :
    findSpace (dstr ++ ' ' :: rest) = some dstr.length := by
  induction dstr with
  | nil => simp [findSpace]
  | cons c cs ih =>
    have hc : ¬ (c = ' ') := by
      intro hcc
      exact h (by rw [hcc]; exact List.mem_cons_self _ _)
    simp only [List.cons_append, findSpace, if_neg hc]
    show Option.map (fun n => n + 1) (findSpace (cs ++ ' ' :: rest)) = some (c :: cs).length
    rw [ih (fun hm => h (List.mem_cons_of_mem _ hm))]
    rfl

theorem parseIsize_le (cs : List Char) (n : Int) (h : parseIsize cs = some n) :
    n ≤ 9223372036854775807 := by
  simp only [parseIsize] at h
  split at h
  · exact Option.noConfusion h
  · rename_i c rest
    split at h
    · rcases Option.bind_eq_some.mp h with ⟨m, hm, hsome⟩
      split at hsome
      · injection hsome with h2
        subst h2
        omega
      · exact Option.noConfusion hsome
    · split at h
      · rcases Option.bind_eq_some.mp h with ⟨m, hm, hsome⟩
        split at hsome
        · injection hsome with h2
          subst h2
          rename_i hcond _
          omega
        · exact Option.noConfusion hsome
      · rcases Option.bind_eq_some.mp h with ⟨m, hm, hsome⟩
        split at hsome
        · injection hsome with h2
          subst h2
          rename_i hcond _
          omega
        · exact Option.noConfusion hsome

theorem parseDirective_spec (s : List Char) (L : Nat) (r : Span) (dstr F : List Char) (n : Int)
    (hcontent : lineContent s r = ['#','l','i','n','e',' '] ++ dstr ++ [' ','"'] ++ F ++ ['"'])
    (hnosp : ' ' ∉ dstr)
    (hparse : parseIsize dstr = some n) :
    parseDirective s L r = some ⟨L, r.start, isizeOfNat L + 2 - n,
      some ⟨r.start + dstr.length + 8, r.start + dstr.length + F.length + 8⟩⟩ := by
  simp only [parseDirective]
  rw [hcontent]
  have hlen6 : ¬ ((['#','l','i','n','e',' '] ++ dstr ++ [' ','"'] ++ F ++ ['"']).length < 6) := by
    simp only [List.length_append, List.length_cons, List.length_nil]
    omega
  rw [if_neg hlen6]
  have hdrop : (['#','l','i','n','e',' '] ++ dstr ++ [' ','"'] ++ F ++ ['"']).drop 6 =
      dstr ++ ' ' :: '"' :: (F ++ ['"']) := by
    simp only [List.append_assoc, List.cons_append, List.nil_append]
    rfl
  rw [hdrop, findSpace_marker dstr _ hnosp]
  dsimp only
  rw [List.take_left, hparse]
  dsimp only
  simp only [Option.some.injEq, LineDirective.mk.injEq, Span.mk.injEq,
    List.length_append, List.length_cons, List.length_nil]
  refine ⟨?_, ?_, ?_, ?_, ?_⟩ <;> first | trivial | omega

theorem forall₂_mem_left {α β : Type} {Q : α → β → Prop} :
    ∀ {xs : List α} {ys : List β}, List.Forall₂ Q xs ys → ∀ a ∈ xs, ∃ b ∈ ys, Q a b := by
  intro xs ys hf
  induction hf with
  | nil => intro a ha; cases ha
  | cons hq hf2 ih =>
    intro a ha
    rcases List.mem_cons.mp ha with h | h
    · subst h
      exact ⟨_, List.mem_cons_self _ _, hq⟩
    · rcases ih a h with ⟨b, hb, hqb⟩
      exact ⟨b, List.mem_cons_of_mem _ hb, hqb⟩

theorem directive_mem_of_line (s : List Char) (ds : List LineDirective) (L : Nat)
    (hds : directivesOf s = some ds)
    (hL : L < (lineRanges s).length)
    (hmark : startsWithMarker (lineContent s ((lineRanges s).getD L default)) = true) :
    ∃ d ∈ ds, parseDirective s L ((lineRanges s).getD L default) = some d := by
  have hmem : (L, (lineRanges s).getD L default) ∈ markedLines s := by
    unfold markedLines
    rw [List.mem_filter]
    refine ⟨?_, hmark⟩
    rw [List.mk_mem_enum_iff_getElem?, ← List.get?_eq_getElem?]
    exact get?_eq_some_getD _ L hL
  have hf := scanDirectives_forall₂ s (markedLines s) ds hds
  rcases forall₂_mem_left hf _ hmem with ⟨d, hd, hq⟩
  exact ⟨d, hd, hq⟩

theorem take_drop_within (s : List Char) (r : Span) (content : List Char)
    (hcontent : (s.take r.stop).drop r.start = content)
    (hstop : r.stop ≤ s.length) (hss : r.start ≤ r.stop)
    (x n : Nat) (hxn : r.start + x + n ≤ r.stop) :
    (s.take (r.start + x + n)).drop (r.start + x) = (content.drop x).take n := by
  have hM : (s.drop r.start).take (r.stop - r.start) = content := by
    rw [← List.drop_take]
    exact hcontent
  have hlhs : (s.take (r.start + x + n)).drop (r.start + x) =
      ((s.drop r.start).drop x).take n := by
    rw [List.drop_take]
    have h1 : r.start + x + n - (r.start + x) = n := by omega
    rw [h1, List.drop_drop]
  rw [hlhs, ← hM, List.drop_take]
  rw [List.take_take]
  have h2 : n ⊓ (r.stop - r.start - x) = n := by
    rw [Nat.min_eq_left]
    omega
  rw [h2]

/-- C2 (amended): for a buffer containing a well-formed directive line
'#line N "F"' (N at least 1) at flattened line L whose following line is
not itself a marker line, file_id of any byte offset on flattened line
L + 1 yields a segment whose offset is L + 2 - N and whose name resolves
to F, and line_index on that segment and offset returns N - 1. -/
theorem c2_directive_offset_contract (s : List Char) (pf : PreprocessedFile)
    (L N : Nat) (dstr F : List Char) (byte : Nat)
    (hlen : s.length < 9223372036854775808)
    (hnew : PreprocessedFile.new s = some pf)
    (hL1 : L + 1 < (lineRanges s).length)
    (hline : lineContent s ((lineRanges s).getD L default) =
      ['#','l','i','n','e',' '] ++ dstr ++ [' ','"'] ++ F ++ ['"'])
    (hnosp : ' ' ∉ dstr)
    (hparse : parseIsize dstr = some ((N : Nat) : Int))
    (hN : 1 ≤ N)
    (hnext : startsWithMarker (lineContent s ((lineRanges s).getD (L + 1) default)) = false)
    (hb1 : ((lineRanges s).getD (L + 1) default).start ≤ byte)
    (hb2 : byte ≤ ((lineRanges s).getD (L + 1) default).stop) :
    ∃ sl, pf.file_id byte = some sl ∧
      sl.offset = (L : Int) + 2 - (N : Int) ∧
      pf.name sl = some F ∧
      pf.line_index sl byte = some (Except.ok (N - 1)) := by
  have hL : L < (lineRanges s).length := by omega
  obtain ⟨ds, hds, hbuild, hlns, hcts⟩ := new_inv s pf hnew
  obtain ⟨hl', hc', hne, hshape, hlast, hchain, hcover, hdir⟩ := pf_struct s pf ds hds hnew
  obtain ⟨hpw, hfacts⟩ := directivesOf_facts s ds hds
  have hmark : startsWithMarker (lineContent s ((lineRanges s).getD L default)) = true := by
    rw [hline]; rfl
  obtain ⟨d, hdmem, hdparse⟩ := directive_mem_of_line s ds L hds hL hmark
  have hspec := parseDirective_spec s L ((lineRanges s).getD L default) dstr F
    ((N : Nat) : Int) hline hnosp hparse
  rw [hspec] at hdparse
  injection hdparse with hdeq
  subst hdeq
  obtain ⟨sl, hslmem, hslstart, hsloff, hslname, hslstop⟩ := hdir _ hdmem
  dsimp only at hslstart hsloff hslname hslstop
  have hNle : ((N : Nat) : Int) ≤ 9223372036854775807 := parseIsize_le dstr _ hparse
  have hlenlt : (lineRanges s).length < 9223372036854775808 := lineRanges_length_lt s hlen
  have hLsmall : isizeOfNat L = (L : Int) := isizeOfNat_small L (by omega)
  obtain ⟨hbs1, hbs2, hbs3, hbs4⟩ := hshape sl hslmem
  have hstoplt : L + 1 < sl.lines.stop := by
    rcases Nat.lt_or_ge (L + 1) sl.lines.stop with h | h
    · exact h
    · exfalso
      have hstopeq : sl.lines.stop = L + 1 := by omega
      rcases hslstop with hlen2 | ⟨e2, he2, he2eq⟩
      · omega
      · obtain ⟨_, _, _, hmark2⟩ := hfacts e2 he2
        rw [he2eq, hstopeq] at hmark2
        rw [hmark2] at hnext
        exact Bool.noConfusion hnext
  have hbstart : sl.bytes.start = ((lineRanges s).getD (L + 1) default).start := by
    rw [hbs1, hslstart, lineStart_lo _ _ hL1]
  have hb1' : sl.bytes.start ≤ byte := by rw [hbstart]; exact hb1
  have hub : ((lineRanges s).getD (L + 1) default).stop ≤ sl.bytes.stop := by
    rw [hbs2]
    have h2 : lineStart (lineRanges s) (L + 2) ≤ lineStart (lineRanges s) sl.lines.stop :=
      lineStart_mono s _ _ (by omega)
    have h3 : ((lineRanges s).getD (L + 1) default).stop ≤ lineStart (lineRanges s) (L + 2) := by
      by_cases hc2 : L + 2 < (lineRanges s).length
      · rw [lineStart_lo _ _ hc2, lr_start_succ s (L + 1) hc2]
        omega
      · rw [lineStart_hi _ _ (by omega)]
        rw [getLastD_eq_getD _ (lineRanges_ne_nil s)]
        have heq1 : (lineRanges s).length - 1 = L + 1 := by omega
        rw [heq1]
    omega
  have hb2' : byte ≤ sl.bytes.stop := Nat.le_trans hb2 hub
  obtain ⟨⟨k, hk⟩, hgetk⟩ := List.mem_iff_get.mp hslmem
  have hkD : pf.ids.getD k default = sl := by
    rw [getD_eq_get' pf.ids k default hk]
    exact hgetk
  have hfid : pf.file_id byte = some sl := by
    have h4 := file_id_contains s pf ds hds hnew k byte hk
      (by rw [hkD]; exact hb1') (by rw [hkD]; exact hb2')
    rw [hkD] at h4
    exact h4
  have hoffeq : sl.offset = (L : Int) + 2 - (N : Int) := by
    rw [hsloff, hLsmall]
  have hclen : ((lineRanges s).getD L default).stop =
      ((lineRanges s).getD L default).start + (dstr.length + F.length + 9) := by
    have h1 : (lineContent s ((lineRanges s).getD L default)).length =
        dstr.length + F.length + 9 := by
      rw [hline]
      simp only [List.length_append, List.length_cons, List.length_nil]
      omega
    have h2 : (lineContent s ((lineRanges s).getD L default)).length =
        min ((lineRanges s).getD L default).stop s.length -
          ((lineRanges s).getD L default).start := by
      unfold lineContent
      rw [List.length_drop, List.length_take]
    have h3 := lr_stop_le_len s L hL
    have h4 := lr_start_le_stop s L hL
    rw [Nat.min_eq_left h3] at h2
    omega
  have hregroup : (['#','l','i','n','e',' '] ++ dstr ++ [' ','"'] ++ F ++ ['"'] : List Char) =
      (['#','l','i','n','e',' '] ++ (dstr ++ [' ','"'])) ++ (F ++ ['"']) := by
    simp only [List.append_assoc]
  have hlen8 : (['#','l','i','n','e',' '] ++ (dstr ++ ([' ','"'] : List Char))).length =
      dstr.length + 8 := by
    simp only [List.length_append, List.length_cons, List.length_nil]
    omega
  have hdropF : ((['#','l','i','n','e',' '] ++ dstr ++ [' ','"'] ++ F ++ ['"'] : List Char).drop
      (dstr.length + 8)) = F ++ ['"'] := by
    rw [hregroup, List.drop_left' hlen8]
  have hFval : (s.take (((lineRanges s).getD L default).start + (dstr.length + 8) + F.length)).drop
      (((lineRanges s).getD L default).start + (dstr.length + 8)) = F := by
    rw [take_drop_within s ((lineRanges s).getD L default) _ hline
      (lr_stop_le_len s L hL) (lr_start_le_stop s L hL) (dstr.length + 8) F.length (by omega)]
    rw [hdropF, List.take_left]
  have hnameval : pf.name sl = some F := by
    have hnm : sl.name = Span.mk (((lineRanges s).getD L default).start + dstr.length + 8)
        (((lineRanges s).getD L default).start + dstr.length + F.length + 8) := hslname _ rfl
    unfold PreprocessedFile.name
    rw [hnm, hc']
    dsimp only
    have h3 := lr_stop_le_len s L hL
    rw [if_pos ⟨by omega, by omega⟩]
    rw [(by omega : ((lineRanges s).getD L default).start + dstr.length + 8 =
      ((lineRanges s).getD L default).start + (dstr.length + 8))]
    rw [(by omega : ((lineRanges s).getD L default).start + dstr.length + F.length + 8 =
      ((lineRanges s).getD L default).start + (dstr.length + 8) + F.length)]
    rw [hFval]
  rcases Nat.lt_or_ge byte sl.bytes.stop with hcase | hcase
  · have hli := line_index_inside s pf sl byte (L + 1) hl' hL1 hb1 hb2 hb1' hcase
    have hval : usizeOfInt (isizeOfNat (L + 1) - sl.offset) = N - 1 := by
      rw [isizeOfNat_small _ (by omega), hoffeq]
      rw [usizeOfInt_small _ (by omega) (by omega)]
      omega
    rw [hval] at hli
    exact ⟨sl, hfid, hoffeq, hnameval, hli⟩
  · have hstop2 : sl.lines.stop = L + 2 := by
      by_contra hne2
      have hlt2 : L + 2 < sl.lines.stop := by omega
      have hlen2 : L + 2 < (lineRanges s).length := by omega
      have h5 : lineStart (lineRanges s) (L + 2) ≤ lineStart (lineRanges s) sl.lines.stop :=
        lineStart_mono s _ _ (by omega)
      rw [lineStart_lo _ _ hlen2, lr_start_succ s (L + 1) hlen2] at h5
      rw [hbs2] at hcase
      omega
    have hli := line_index_past_end pf sl byte hcase
    have hval : usizeOfInt (isizeOfNat sl.lines.stop - 1 - sl.offset) = N - 1 := by
      rw [hstop2, isizeOfNat_small _ (by omega), hoffeq]
      rw [usizeOfInt_small _ (by omega) (by omega)]
      omega
    rw [hval] at hli
    exact ⟨sl, hfid, hoffeq, hnameval, hli⟩

/-- Closed witness for the C2 amended contract on the buffer
'#line 3 "F"\nx\n' with a byte offset on the line after the directive. -/
theorem c2_directive_offset_contract_witness :
    ∃ sl, c2wPf.file_id 12 = some sl ∧
      sl.offset = ((0 : Nat) : Int) + 2 - ((3 : Nat) : Int) ∧
      c2wPf.name sl = some ("F".toList) ∧
      c2wPf.line_index sl 12 = some (Except.ok (3 - 1)) :=
  c2_directive_offset_contract c2wBuf c2wPf 0 3 ("3".toList) ("F".toList) 12
    (by decide) (by rfl) (by decide) (by rfl) (by decide) (by decide) (by decide)
    (by decide) (by decide) (by decide)
